import Mathlib

/-!
Button and border-size models of libappletdecoration

A shallow embedding of `buttonsmodel.cpp`, `previewsettings.h` and
`previewsettings.cpp`.

* A `QList<T>` is a `List T`; its integer-indexed member functions are the
  functions of the namespace `QList`.  A member function whose index
  precondition is violated has no result (`none`).
* C++ `int` values are `Int`.
* A member function that mutates an object returns the new object, together
  with the `QAbstractItemModel` calls it made or the signals it emitted.
-/

namespace AppletDecoration

/-! ## Qt containers -/

namespace QList

variable {α : Type}

/-- Embeds `QList::count()`. -/
def count (l : List α) : Int := (l.length : Int)

/-- Embeds `QList::at(i)`; `i` must be a valid index position. -/
def at_ (l : List α) (i : Int) : Option α :=
  if 0 ≤ i ∧ i < count l then l[i.toNat]? else none

/-- Embeds `QList::removeAt(i)`; `i` must be a valid index position. -/
def removeAt (l : List α) (i : Int) : Option (List α) :=
  if 0 ≤ i ∧ i < count l then some (l.take i.toNat ++ l.drop (i.toNat + 1)) else none

/-- Embeds `QList::takeAt(i)`: removes the item at index position `i` and returns it,
together with the remaining list. -/
def takeAt (l : List α) (i : Int) : Option (α × List α) :=
  match at_ l i, removeAt l i with
  | some x, some rest => some (x, rest)
  | _, _ => none

/-- Embeds `QList::insert(i, value)`; `i` must satisfy `0 <= i <= size()`. -/
def insert (l : List α) (i : Int) (value : α) : Option (List α) :=
  if 0 ≤ i ∧ i ≤ count l then some (l.take i.toNat ++ value :: l.drop i.toNat) else none

/-- Embeds `QList::append(value)`. -/
def append (l : List α) (value : α) : List α := l ++ [value]

/-- Embeds `QList::move(from, to)`; both must be valid index positions.  Nothing is
done when they are equal; otherwise the items of the range between them are
rotated by one place (`std::rotate`). -/
def move (l : List α) (fromIdx toIdx : Int) : Option (List α) :=
  if 0 ≤ fromIdx ∧ fromIdx < count l ∧ 0 ≤ toIdx ∧ toIdx < count l then
    match l[fromIdx.toNat]? with
    | none => none
    | some x =>
      if fromIdx = toIdx then some l
      else if fromIdx < toIdx then
        -- std::rotate(b + from, b + from + 1, b + to + 1)
        some (l.take fromIdx.toNat
                ++ (l.drop (fromIdx.toNat + 1)).take (toIdx.toNat - fromIdx.toNat)
                ++ x :: l.drop (toIdx.toNat + 1))
      else
        -- std::rotate(b + to, b + from, b + from + 1)
        some (l.take toIdx.toNat
                ++ x :: (l.drop toIdx.toNat).take (fromIdx.toNat - toIdx.toNat)
                ++ l.drop (fromIdx.toNat + 1))
  else none

end QList

/-! ## KDecoration3 enumerations -/

/-- Embeds `KDecoration3::DecorationButtonType`, an `enum class` over `int`: a value
is its integer, and every `int` can be cast to the type.  The enumerators
below are those the sources name, with the integers of their declaration
order in the KDecoration3 header (`Menu` first, numbered from 0). -/
structure DecorationButtonType where
  toInt : Int
  deriving DecidableEq, Repr

namespace DecorationButtonType

def Menu : DecorationButtonType := ⟨0⟩
def ApplicationMenu : DecorationButtonType := ⟨1⟩
def OnAllDesktops : DecorationButtonType := ⟨2⟩
def Minimize : DecorationButtonType := ⟨3⟩
def Maximize : DecorationButtonType := ⟨4⟩
def Close : DecorationButtonType := ⟨5⟩
def ContextHelp : DecorationButtonType := ⟨6⟩
def Shade : DecorationButtonType := ⟨7⟩
def KeepBelow : DecorationButtonType := ⟨8⟩
def KeepAbove : DecorationButtonType := ⟨9⟩

end DecorationButtonType

/-- Embeds `KDecoration3::BorderSize`, an `enum class` over `int`.  The
enumerators below carry the integers of their declaration order in the
KDecoration3 header (`None` first, numbered from 0). -/
structure BorderSize where
  toInt : Int
  deriving DecidableEq, Repr

namespace BorderSize

def None : BorderSize := ⟨0⟩
def NoSides : BorderSize := ⟨1⟩
def Tiny : BorderSize := ⟨2⟩
def Normal : BorderSize := ⟨3⟩
def Large : BorderSize := ⟨4⟩
def VeryLarge : BorderSize := ⟨5⟩
def Huge : BorderSize := ⟨6⟩
def VeryHuge : BorderSize := ⟨7⟩
def Oversized : BorderSize := ⟨8⟩

end BorderSize

/-! ## Qt item models -/

namespace Qt

/-- Embeds `Qt::DisplayRole`. -/
def DisplayRole : Int := 0

/-- Embeds `Qt::UserRole`. -/
def UserRole : Int := 256

end Qt

/-- The values a `QVariant` holds in this library; `invalid` is the empty
`QVariant()`. -/
inductive QVariant where
  | invalid
  | int (v : Int)
  | string (s : String)
  | borderSize (b : BorderSize)
  deriving DecidableEq, Repr

namespace QVariant

/-- Embeds `QVariant::value<KDecoration3::DecorationButtonType>()`: an integer is
converted to the enumeration, anything else gives the value-initialised
enumeration. -/
def toButtonType : QVariant → DecorationButtonType
  | int v => ⟨v⟩
  | _ => ⟨0⟩

/-- Embeds `QVariant::value<KDecoration3::BorderSize>()`. -/
def toBorderSize : QVariant → BorderSize
  | borderSize b => b
  | int v => ⟨v⟩
  | _ => ⟨0⟩

end QVariant

/-- A `QModelIndex` of a list model: row, column and whether it refers to a
model.  `QModelIndex()` is `QModelIndex.invalid`. -/
structure QModelIndex where
  row : Int
  column : Int
  hasModel : Bool
  deriving DecidableEq, Repr

namespace QModelIndex

/-- Embeds `QModelIndex()`. -/
def invalid : QModelIndex := ⟨-1, -1, false⟩

/-- Embeds `QModelIndex::isValid()`. -/
def isValid (i : QModelIndex) : Bool :=
  decide (0 ≤ i.row) && decide (0 ≤ i.column) && i.hasModel

/-- Embeds `QModelIndex::data(role)`, for the `data` function of the index's model. -/
def data (i : QModelIndex) (modelData : QModelIndex → Int → QVariant) (role : Int) : QVariant :=
  if i.hasModel then modelData i role else QVariant.invalid

end QModelIndex

namespace QAbstractListModel

/-- Embeds `QAbstractListModel::columnCount(parent)`. -/
def columnCount (parent : QModelIndex) : Int := if parent.isValid then 0 else 1

/-- Embeds `QAbstractItemModel::hasIndex(row, column, parent)`. -/
def hasIndex (rowCount : QModelIndex → Int) (row column : Int) (parent : QModelIndex) : Bool :=
  if row < 0 ∨ column < 0 then false
  else decide (row < rowCount parent) && decide (column < columnCount parent)

/-- Embeds `QAbstractListModel::index(row)` with the default column `0` and the
default (root) parent. -/
def index (rowCount : QModelIndex → Int) (row : Int) : QModelIndex :=
  if hasIndex rowCount row 0 QModelIndex.invalid then ⟨row, 0, true⟩ else QModelIndex.invalid

end QAbstractListModel

/-- The calls a `ButtonsModel` member function makes to announce a change of
its rows (all with the root index as parent). -/
inductive ModelCall where
  | beginRemoveRows (first last : Int)
  | endRemoveRows
  | beginMoveRows (sourceFirst sourceLast destinationChild : Int)
  | endMoveRows
  | beginInsertRows (first last : Int)
  | endInsertRows
  deriving DecidableEq, Repr

/-! ## buttonsmodel.cpp -/

/-- Embeds `ButtonsModel`: the ordered list of buttons. -/
structure ButtonsModel where
  m_buttons : List DecorationButtonType
  deriving DecidableEq, Repr

namespace ButtonsModel

/-- Embeds `m_buttons.count()`. -/
def count (m : ButtonsModel) : Int := QList.count m.m_buttons

/-- Embeds `ButtonsModel::rowCount`. -/
def rowCount (m : ButtonsModel) (parent : QModelIndex) : Int :=
  if parent.isValid then 0 else m.count

/-- Embeds `buttonToName`; `i18n` is the translation of a message. -/
def buttonToName (i18n : String → String) (type : DecorationButtonType) : String :=
  if type = DecorationButtonType.Menu then i18n "Menu"
  else if type = DecorationButtonType.ApplicationMenu then i18n "Application menu"
  else if type = DecorationButtonType.OnAllDesktops then i18n "On all desktops"
  else if type = DecorationButtonType.Minimize then i18n "Minimize"
  else if type = DecorationButtonType.Maximize then i18n "Maximize"
  else if type = DecorationButtonType.Close then i18n "Close"
  else if type = DecorationButtonType.ContextHelp then i18n "Context help"
  else if type = DecorationButtonType.Shade then i18n "Shade"
  else if type = DecorationButtonType.KeepBelow then i18n "Keep below"
  else if type = DecorationButtonType.KeepAbove then i18n "Keep above"
  else ""

/-- Embeds `ButtonsModel::data`. -/
def data (i18n : String → String) (m : ButtonsModel) (index : QModelIndex) (role : Int) :
    QVariant :=
  if !index.isValid ∨ index.row < 0 ∨ index.row ≥ m.count ∨ index.column ≠ 0 then
    QVariant.invalid
  else
    match QList.at_ m.m_buttons index.row with
    | none => QVariant.invalid
    | some button =>
      if role = Qt.DisplayRole then QVariant.string (buttonToName i18n button)
      else if role = Qt.UserRole then QVariant.int button.toInt
      else QVariant.invalid

/-- Embeds `ButtonsModel::remove`. -/
def remove (m : ButtonsModel) (row : Int) : Option (ButtonsModel × List ModelCall) :=
  if row < 0 ∨ row ≥ m.count then some (m, [])
  else
    match QList.removeAt m.m_buttons row with
    | none => none
    | some l => some (⟨l⟩, [ModelCall.beginRemoveRows row row, ModelCall.endRemoveRows])

/-- Embeds `ButtonsModel::down`.  The argument `m_buttons.takeAt(index)` is evaluated
before `insert` runs, so `insert` acts on the list without the taken item. -/
def down (m : ButtonsModel) (index : Int) : Option (ButtonsModel × List ModelCall) :=
  if m.count < 2 ∨ index = m.count - 1 then some (m, [])
  else
    match QList.takeAt m.m_buttons index with
    | none => none
    | some (x, rest) =>
      match QList.insert rest (index + 1) x with
      | none => none
      | some l =>
        some (⟨l⟩, [ModelCall.beginMoveRows index index (index + 2), ModelCall.endMoveRows])

/-- Embeds `ButtonsModel::up`. -/
def up (m : ButtonsModel) (index : Int) : Option (ButtonsModel × List ModelCall) :=
  if m.count < 2 ∨ index = 0 then some (m, [])
  else
    match QList.takeAt m.m_buttons index with
    | none => none
    | some (x, rest) =>
      match QList.insert rest (index - 1) x with
      | none => none
      | some l =>
        some (⟨l⟩, [ModelCall.beginMoveRows index index (index - 1), ModelCall.endMoveRows])

/-- Embeds `ButtonsModel::add(KDecoration3::DecorationButtonType)`. -/
def add (m : ButtonsModel) (type : DecorationButtonType) : ButtonsModel × List ModelCall :=
  (⟨QList.append m.m_buttons type⟩,
    [ModelCall.beginInsertRows m.count m.count, ModelCall.endInsertRows])

/-- Embeds `ButtonsModel::add(int, int)`. -/
def addAt (m : ButtonsModel) (index type : Int) : Option (ButtonsModel × List ModelCall) :=
  match QList.insert m.m_buttons (index + 1) ⟨type⟩ with
  | none => none
  | some l =>
    some (⟨l⟩, [ModelCall.beginInsertRows (index + 1) (index + 1), ModelCall.endInsertRows])

/-- Embeds `ButtonsModel::move`. -/
def move (m : ButtonsModel) (sourceIndex targetIndex : Int) :
    Option (ButtonsModel × List ModelCall) :=
  if sourceIndex = max 0 targetIndex then some (m, [])
  else
    let announced :=
      if targetIndex > sourceIndex then
        ModelCall.beginMoveRows sourceIndex sourceIndex (targetIndex + 1)
      else
        ModelCall.beginMoveRows sourceIndex sourceIndex (max 0 targetIndex)
    match QList.move m.m_buttons sourceIndex (max 0 targetIndex) with
    | none => none
    | some l => some (⟨l⟩, [announced, ModelCall.endMoveRows])

end ButtonsModel

/-! ## previewsettings.h, previewsettings.cpp -/

/-- Embeds `BorderSizesModel`: the list of border sizes. -/
structure BorderSizesModel where
  m_borders : List BorderSize
  deriving DecidableEq, Repr

namespace BorderSizesModel

/-- The default member initialiser of `m_borders` in `previewsettings.h`. -/
def new : BorderSizesModel :=
  ⟨[BorderSize.None, BorderSize.NoSides, BorderSize.Tiny, BorderSize.Normal, BorderSize.Large,
    BorderSize.VeryLarge, BorderSize.Huge, BorderSize.VeryHuge, BorderSize.Oversized]⟩

/-- Embeds `BorderSizesModel::rowCount`. -/
def rowCount (m : BorderSizesModel) (parent : QModelIndex) : Int :=
  if parent.isValid then 0 else QList.count m.m_borders

/-- Embeds `BorderSizesModel::data`. -/
def data (m : BorderSizesModel) (index : QModelIndex) (role : Int) : QVariant :=
  if !index.isValid ∨ index.row < 0 ∨ index.row ≥ QList.count m.m_borders ∨ index.column ≠ 0 then
    QVariant.invalid
  else if role ≠ Qt.DisplayRole ∧ role ≠ Qt.UserRole then
    QVariant.invalid
  else
    match QList.at_ m.m_borders index.row with
    | none => QVariant.invalid
    | some b => QVariant.borderSize b

end BorderSizesModel

/-- The signals declared by `PreviewSettings` (`Q_SIGNALS` in `previewsettings.h`). -/
inductive PreviewSignal (Font : Type) where
  | onAllDesktopsAvailableChanged (v : Bool)
  | alphaChannelSupportedChanged (v : Bool)
  | closeOnDoubleClickOnMenuChanged (v : Bool)
  | borderSizesIndexChanged (v : Int)
  | fontChanged (f : Font)
  deriving DecidableEq, Repr

/-- The signals of the parent `KDecoration3::DecorationSettings` that
`PreviewSettings` emits or forwards to. -/
inductive DecorationSettingsSignal (Font : Type) where
  | alphaChannelSupportedChanged (v : Bool)
  | onAllDesktopsAvailableChanged (v : Bool)
  | closeOnDoubleClickOnMenuChanged (v : Bool)
  | fontChanged (f : Font)
  | borderSizeChanged (b : BorderSize)
  | decorationButtonsLeftChanged (buttons : List DecorationButtonType)
  | decorationButtonsRightChanged (buttons : List DecorationButtonType)
  deriving DecidableEq, Repr

/-- A signal emission observed during a member function of `PreviewSettings`:
one of its own signals, or a signal of the parent decoration settings. -/
inductive Emission (Font : Type) where
  | own (s : PreviewSignal Font)
  | parent (s : DecorationSettingsSignal Font)
  deriving DecidableEq, Repr

/-- Embeds `PreviewSettings`: the data members of the class. -/
structure PreviewSettings (Font : Type) where
  m_alphaChannelSupported : Bool
  m_onAllDesktopsAvailable : Bool
  m_closeOnDoubleClick : Bool
  m_leftButtons : ButtonsModel
  m_rightButtons : ButtonsModel
  m_availableButtons : ButtonsModel
  m_borderSizes : BorderSizesModel
  m_borderSize : Int
  m_font : Font
  deriving DecidableEq, Repr

namespace PreviewSettings

variable {Font : Type}

/-- The constructor `PreviewSettings::PreviewSettings`; `titleFont` is
`QFontDatabase::systemFont(QFontDatabase::TitleFont)`. -/
def new (titleFont : Font) : PreviewSettings Font where
  m_alphaChannelSupported := true
  m_onAllDesktopsAvailable := true
  m_closeOnDoubleClick := false
  m_leftButtons :=
    ⟨[DecorationButtonType.Minimize, DecorationButtonType.Close, DecorationButtonType.Menu,
      DecorationButtonType.ApplicationMenu, DecorationButtonType.OnAllDesktops]⟩
  m_rightButtons :=
    ⟨[DecorationButtonType.ContextHelp, DecorationButtonType.Minimize,
      DecorationButtonType.Maximize, DecorationButtonType.Close]⟩
  m_availableButtons :=
    ⟨[DecorationButtonType.Menu, DecorationButtonType.ApplicationMenu,
      DecorationButtonType.OnAllDesktops, DecorationButtonType.Minimize,
      DecorationButtonType.Maximize, DecorationButtonType.Close,
      DecorationButtonType.ContextHelp, DecorationButtonType.Shade,
      DecorationButtonType.KeepBelow, DecorationButtonType.KeepAbove]⟩
  m_borderSizes := BorderSizesModel.new
  m_borderSize := BorderSize.Normal.toInt
  m_font := titleFont

/-- Embeds `PreviewSettings::isAlphaChannelSupported`. -/
def isAlphaChannelSupported (s : PreviewSettings Font) : Bool := s.m_alphaChannelSupported

/-- Embeds `PreviewSettings::isOnAllDesktopsAvailable`. -/
def isOnAllDesktopsAvailable (s : PreviewSettings Font) : Bool := s.m_onAllDesktopsAvailable

/-- Embeds `PreviewSettings::isCloseOnDoubleClickOnMenu`. -/
def isCloseOnDoubleClickOnMenu (s : PreviewSettings Font) : Bool := s.m_closeOnDoubleClick

/-- Embeds `PreviewSettings::borderSizesIndex`. -/
def borderSizesIndex (s : PreviewSettings Font) : Int := s.m_borderSize

/-- Embeds `PreviewSettings::font`. -/
def font (s : PreviewSettings Font) : Font := s.m_font

/-- Embeds `PreviewSettings::decorationButtonsLeft`. -/
def decorationButtonsLeft (s : PreviewSettings Font) : List DecorationButtonType :=
  s.m_leftButtons.m_buttons

/-- Embeds `PreviewSettings::decorationButtonsRight`. -/
def decorationButtonsRight (s : PreviewSettings Font) : List DecorationButtonType :=
  s.m_rightButtons.m_buttons

/-- Embeds `PreviewSettings::borderSize`. -/
def borderSize (s : PreviewSettings Font) : BorderSize :=
  QVariant.toBorderSize
    ((QAbstractListModel.index s.m_borderSizes.rowCount s.m_borderSize).data
      s.m_borderSizes.data Qt.UserRole)

/-- Embeds `PreviewSettings::setAlphaChannelSupported`; the signal is connected to
the signal of the same name of the parent (constructor, first `connect`). -/
def setAlphaChannelSupported (s : PreviewSettings Font) (supported : Bool) :
    PreviewSettings Font × List (Emission Font) :=
  if s.m_alphaChannelSupported = supported then (s, [])
  else
    let s1 := { s with m_alphaChannelSupported := supported }
    (s1, [Emission.own (PreviewSignal.alphaChannelSupportedChanged s1.m_alphaChannelSupported),
          Emission.parent
            (DecorationSettingsSignal.alphaChannelSupportedChanged s1.m_alphaChannelSupported)])

/-- Embeds `PreviewSettings::setOnAllDesktopsAvailable`. -/
def setOnAllDesktopsAvailable (s : PreviewSettings Font) (available : Bool) :
    PreviewSettings Font × List (Emission Font) :=
  if s.m_onAllDesktopsAvailable = available then (s, [])
  else
    let s1 := { s with m_onAllDesktopsAvailable := available }
    (s1, [Emission.own (PreviewSignal.onAllDesktopsAvailableChanged s1.m_onAllDesktopsAvailable),
          Emission.parent
            (DecorationSettingsSignal.onAllDesktopsAvailableChanged s1.m_onAllDesktopsAvailable)])

/-- Embeds `PreviewSettings::setCloseOnDoubleClickOnMenu`. -/
def setCloseOnDoubleClickOnMenu (s : PreviewSettings Font) (enabled : Bool) :
    PreviewSettings Font × List (Emission Font) :=
  if s.m_closeOnDoubleClick = enabled then (s, [])
  else
    let s1 := { s with m_closeOnDoubleClick := enabled }
    (s1, [Emission.own (PreviewSignal.closeOnDoubleClickOnMenuChanged enabled),
          Emission.parent (DecorationSettingsSignal.closeOnDoubleClickOnMenuChanged enabled)])

/-- The lambda `updateLeft` of the constructor, connected to `rowsRemoved`,
`rowsMoved` and `rowsInserted` of the left model. -/
def updateLeft (s : PreviewSettings Font) : List (Emission Font) :=
  [Emission.parent (DecorationSettingsSignal.decorationButtonsLeftChanged s.decorationButtonsLeft)]

/-- The lambda `updateRight` of the constructor. -/
def updateRight (s : PreviewSettings Font) : List (Emission Font) :=
  [Emission.parent
    (DecorationSettingsSignal.decorationButtonsRightChanged s.decorationButtonsRight)]

/-- Embeds `PreviewSettings::addButtonToLeft`.  `ButtonsModel::add` ends with
`endInsertRows`, which emits `rowsInserted`, to which `updateLeft` is
connected.  The role is `Qt::UserRole`, for which `data` translates no
message. -/
def addButtonToLeft (s : PreviewSettings Font) (row : Int) :
    PreviewSettings Font × List (Emission Font) :=
  let index := QAbstractListModel.index s.m_availableButtons.rowCount row
  if !index.isValid then (s, [])
  else
    let type := QVariant.toButtonType
      (index.data (s.m_availableButtons.data (fun msg => msg)) Qt.UserRole)
    let s1 := { s with m_leftButtons := (s.m_leftButtons.add type).1 }
    (s1, s1.updateLeft)

/-- Embeds `PreviewSettings::addButtonToRight`. -/
def addButtonToRight (s : PreviewSettings Font) (row : Int) :
    PreviewSettings Font × List (Emission Font) :=
  let index := QAbstractListModel.index s.m_availableButtons.rowCount row
  if !index.isValid then (s, [])
  else
    let type := QVariant.toButtonType
      (index.data (s.m_availableButtons.data (fun msg => msg)) Qt.UserRole)
    let s1 := { s with m_rightButtons := (s.m_rightButtons.add type).1 }
    (s1, s1.updateRight)

/-- Embeds `PreviewSettings::setBorderSizesIndex`; `decorationSettings()` is the
parent. -/
def setBorderSizesIndex (s : PreviewSettings Font) (index : Int) :
    PreviewSettings Font × List (Emission Font) :=
  if s.m_borderSize = index then (s, [])
  else
    let s1 := { s with m_borderSize := index }
    (s1, [Emission.own (PreviewSignal.borderSizesIndexChanged index),
          Emission.parent (DecorationSettingsSignal.borderSizeChanged s1.borderSize)])

/-- Embeds `PreviewSettings::setFont`; `m_font == font` is the decidable equality
of `Font`. -/
def setFont [DecidableEq Font] (s : PreviewSettings Font) (font : Font) :
    PreviewSettings Font × List (Emission Font) :=
  if s.m_font = font then (s, [])
  else
    let s1 := { s with m_font := font }
    (s1, [Emission.own (PreviewSignal.fontChanged s1.m_font),
          Emission.parent (DecorationSettingsSignal.fontChanged s1.m_font)])

end PreviewSettings

/-- Embeds `Settings`: the border-size index it holds and the preview settings
it obtained from its bridge and is connected to (`none`: `nullptr` before
`createSettings` ran, or preview settings that were destroyed). -/
structure Settings (Font : Type) where
  m_previewSettings : Option (PreviewSettings Font)
  m_borderSize : Int
  deriving DecidableEq, Repr

namespace Settings

variable {Font : Type}

/-- The constructor `Settings::Settings` with the default member initialisers
`m_previewSettings = nullptr` and `m_borderSize = 3`. -/
def new : Settings Font := ⟨none, 3⟩

/-- Embeds `Settings::borderSizesIndex`. -/
def borderSizesIndex (s : Settings Font) : Int := s.m_borderSize

end Settings

/-! ## Qt's convention for announced row moves -/

/-- Qt's move convention, as the documentation of `beginMoveRows` states it:
the row `source` is placed before the row `destination`, both counted in the
numbering before the move; `destination = count` places it at the end.  No
result when `source` is not a row or `destination` is outside `0..count`. -/
def qtMoveRow {α : Type} (l : List α) (source destination : Int) : Option (List α) :=
  if 0 ≤ source ∧ source < QList.count l ∧ 0 ≤ destination ∧ destination ≤ QList.count l then
    match l[source.toNat]? with
    | none => none
    | some x =>
      if source < destination then
        -- rows before `destination` except `source`, the moved row, the rest
        some ((l.take destination.toNat).eraseIdx source.toNat ++ x :: l.drop destination.toNat)
      else
        -- rows before `destination`, the moved row, the rest except `source`
        some (l.take destination.toNat
          ++ x :: (l.drop destination.toNat).eraseIdx (source.toNat - destination.toNat))
  else none

/-! ## The contract of a notifying property setter -/

/-- The contract of a property setter `set` with getter `get` and change
signal `changed`: after `set s v` the getter returns `v`, the state is `s`
with this one property replaced (`update`), the change signal is among the
emitted signals exactly when `v` differs from the value held before, and then
only with the new value, and a second `set` with the same value emits
nothing. -/
def NotifiesIffChanged {σ β ε : Type} (set : σ → β → σ × List ε) (get : σ → β)
    (update : σ → β → σ) (changed : β → ε) : Prop :=
  ∀ (s : σ) (v : β),
    get (set s v).1 = v ∧
    (set s v).1 = update s v ∧
    (∀ w : β, changed w ∈ (set s v).2 ↔ (v ≠ get s ∧ w = v)) ∧
    (set (set s v).1 v).2 = []

/-! ## Row signals of a model and the slots connected to them -/

/-- The signals `rowsRemoved`, `rowsMoved` and `rowsInserted` of
`QAbstractItemModel`, for rows of the root parent. -/
inductive RowSignal where
  | rowsRemoved (first last : Int)
  | rowsMoved (sourceStart sourceEnd destinationRow : Int)
  | rowsInserted (first last : Int)
  deriving DecidableEq, Repr

namespace QAbstractItemModel

/-- The check `allowMove` of `QAbstractItemModel::beginMoveRows` for a move
within one parent: a move of the rows `start..last` to a destination in
`start..last + 1` is a move onto itself and is rejected. -/
def allowMove (start last destinationStart : Int) : Bool :=
  !(decide (destinationStart ≥ start) && decide (destinationStart ≤ last + 1))

/-- The row signals emitted by a sequence of calls, given the stack of pending
changes.  A `begin...` call pushes its change (`beginMoveRows` only when
`allowMove` accepts it, otherwise it returns `false` and pushes nothing); an
`end...` call pops the pending change and emits its signal.  There is no
result when an `end...` call finds no pending change of its kind. -/
def rowSignals : List ModelCall → List ModelCall → Option (List RowSignal)
  | [], _ => some []
  | ModelCall.beginRemoveRows first last :: rest, pending =>
    rowSignals rest (ModelCall.beginRemoveRows first last :: pending)
  | ModelCall.beginInsertRows first last :: rest, pending =>
    rowSignals rest (ModelCall.beginInsertRows first last :: pending)
  | ModelCall.beginMoveRows sourceFirst sourceLast destinationChild :: rest, pending =>
    if allowMove sourceFirst sourceLast destinationChild then
      rowSignals rest (ModelCall.beginMoveRows sourceFirst sourceLast destinationChild :: pending)
    else rowSignals rest pending
  | ModelCall.endRemoveRows :: rest, pending =>
    match pending with
    | ModelCall.beginRemoveRows first last :: older =>
      (rowSignals rest older).map (fun signals => RowSignal.rowsRemoved first last :: signals)
    | _ => none
  | ModelCall.endInsertRows :: rest, pending =>
    match pending with
    | ModelCall.beginInsertRows first last :: older =>
      (rowSignals rest older).map (fun signals => RowSignal.rowsInserted first last :: signals)
    | _ => none
  | ModelCall.endMoveRows :: rest, pending =>
    match pending with
    | ModelCall.beginMoveRows sourceFirst sourceLast destinationChild :: older =>
      (rowSignals rest older).map
        (fun signals => RowSignal.rowsMoved sourceFirst sourceLast destinationChild :: signals)
    | _ => none

end QAbstractItemModel

/-- A call of one of the row-changing member functions of `ButtonsModel`. -/
inductive ButtonsOp where
  | remove (row : Int)
  | down (index : Int)
  | up (index : Int)
  | add (type : DecorationButtonType)
  | addAt (index type : Int)
  | move (sourceIndex targetIndex : Int)
  deriving DecidableEq, Repr

namespace ButtonsOp

/-- The member function call on a model. -/
def run : ButtonsOp → ButtonsModel → Option (ButtonsModel × List ModelCall)
  | remove row, m => m.remove row
  | down index, m => m.down index
  | up index, m => m.up index
  | add type, m => some (m.add type)
  | addAt index type, m => m.addAt index type
  | move sourceIndex targetIndex, m => m.move sourceIndex targetIndex

/-- The arguments of the call are in range for the model: the call returns at
its guard, or its rows are rows of the list (for `add(int, int)` the row
`index` may also be `-1`, for `move` the target may also be negative). -/
def inRange (m : ButtonsModel) : ButtonsOp → Prop
  | remove _ => True
  | down index => m.count < 2 ∨ index = m.count - 1 ∨ (0 ≤ index ∧ index < m.count)
  | up index => m.count < 2 ∨ index = 0 ∨ (0 ≤ index ∧ index < m.count)
  | add _ => True
  | addAt index _ => -1 ≤ index ∧ index < m.count
  | move sourceIndex targetIndex =>
    sourceIndex = max 0 targetIndex ∨
      (0 ≤ sourceIndex ∧ sourceIndex < m.count ∧ targetIndex < m.count)

/-- The call returns at the early-return guard of its member function: the
condition of the first `if` of `remove`, `down`, `up` and `move`; the two
`add` overloads have no guard. -/
def returnsAtGuard (m : ButtonsModel) : ButtonsOp → Prop
  | remove row => row < 0 ∨ m.count ≤ row
  | down index => m.count < 2 ∨ index = m.count - 1
  | up index => m.count < 2 ∨ index = 0
  | add _ => False
  | addAt _ _ => False
  | move sourceIndex targetIndex => sourceIndex = max 0 targetIndex

end ButtonsOp

namespace PreviewSettings

variable {Font : Type}

/-- A call of a member function of the model `leftButtonsModel()`.  The
constructor connects `rowsRemoved`, `rowsMoved` and `rowsInserted` of that
model to `updateLeft`; the signals are emitted by the `end...Rows` call that
ends the member function, when `m_buttons` has its new value. -/
def callLeft (s : PreviewSettings Font) (op : ButtonsOp) :
    Option (PreviewSettings Font × List (Emission Font)) :=
  match op.run s.m_leftButtons with
  | none => none
  | some (buttons, calls) =>
    match QAbstractItemModel.rowSignals calls [] with
    | none => none
    | some signals =>
      let s1 := { s with m_leftButtons := buttons }
      some (s1, (signals.map (fun _ => s1.updateLeft)).flatten)

/-- A call of a member function of the model `rightButtonsModel()`, whose row
signals are connected to `updateRight`. -/
def callRight (s : PreviewSettings Font) (op : ButtonsOp) :
    Option (PreviewSettings Font × List (Emission Font)) :=
  match op.run s.m_rightButtons with
  | none => none
  | some (buttons, calls) =>
    match QAbstractItemModel.rowSignals calls [] with
    | none => none
    | some signals =>
      let s1 := { s with m_rightButtons := buttons }
      some (s1, (signals.map (fun _ => s1.updateRight)).flatten)

end PreviewSettings

/-! ## Settings: the border-size index and its forwarding -/

/-- The signals declared by `Settings` (`Q_SIGNALS` in `previewsettings.h`). -/
inductive SettingsSignal where
  | bridgeChanged
  | settingsChanged
  | borderSizesIndexChanged (v : Int)
  deriving DecidableEq, Repr

/-- A signal emission observed during a member function of `Settings`: one of
its own signals, or an emission of the preview settings it is connected to. -/
inductive SettingsEmission (Font : Type) where
  | own (s : SettingsSignal)
  | preview (e : Emission Font)
  deriving DecidableEq, Repr

namespace Settings

variable {Font : Type}

/-- Embeds `Settings::createSettings`.  The argument is `none` when `m_bridge`
is null; otherwise it is the `PreviewSettings` that
`m_bridge->lastCreatedSettings()` returns once the `DecorationSettings` is
constructed.  In that case `borderSizesIndexChanged` is connected to the slot
`setBorderSizesIndex` of these preview settings, which is what
`Settings.setBorderSizesIndex` then runs on `m_previewSettings`.  With a null
bridge `m_settings.reset()` releases the decoration settings, which destroys
them and the preview settings they own, and with these the connection; the
member `m_previewSettings` is left dangling and never read again before it is
assigned, so that the model holds no preview settings afterwards. -/
def createSettings (s : Settings Font) (lastCreatedSettings : Option (PreviewSettings Font)) :
    Settings Font × List (SettingsEmission Font) :=
  match lastCreatedSettings with
  | none =>
    ({ s with m_previewSettings := none }, [SettingsEmission.own SettingsSignal.settingsChanged])
  | some preview =>
    let r := preview.setBorderSizesIndex s.m_borderSize
    ({ s with m_previewSettings := some r.1 },
      r.2.map SettingsEmission.preview ++ [SettingsEmission.own SettingsSignal.settingsChanged])

/-- Embeds `Settings::setBorderSizesIndex`; emitting `borderSizesIndexChanged`
runs the connected slot `PreviewSettings::setBorderSizesIndex` of
`m_previewSettings` (connected in `createSettings`). -/
def setBorderSizesIndex (s : Settings Font) (index : Int) :
    Settings Font × List (SettingsEmission Font) :=
  if s.m_borderSize = index then (s, [])
  else
    let s1 := { s with m_borderSize := index }
    match s1.m_previewSettings with
    | none =>
      (s1, [SettingsEmission.own (SettingsSignal.borderSizesIndexChanged s1.m_borderSize)])
    | some preview =>
      let r := preview.setBorderSizesIndex s1.m_borderSize
      ({ s1 with m_previewSettings := some r.1 },
        SettingsEmission.own (SettingsSignal.borderSizesIndexChanged s1.m_borderSize)
          :: r.2.map SettingsEmission.preview)

end Settings

/-! ## Lists: taking an item out and putting it back -/

section ListLemmas

variable {α : Type}

theorem getElem?_cons_ite (x : α) (l : List α) (j : Nat) :
    (x :: l)[j]? = if j = 0 then some x else l[j - 1]? := by
  cases j <;> simp

theorem insertIdx_eq_take_drop (x : α) :
    ∀ (n : Nat) (l : List α), n ≤ l.length → l.insertIdx n x = l.take n ++ x :: l.drop n
  | 0, l, _ => by simp
  | n + 1, [], h => by simp at h
  | n + 1, y :: l, h => by
    have ih := insertIdx_eq_take_drop x n l (by simpa using h)
    simp [List.insertIdx_succ_cons, ih]

/-- Position by position: the list with the item of position `i` taken out and
put back at position `j`. -/
theorem getElem?_eraseIdx_insertIdx (l : List α) (i j : Nat) (x : α)
    (hi : i < l.length) (hj : j < l.length) (k : Nat) :
    ((l.eraseIdx i).insertIdx j x)[k]? =
      if k = j then some x
      else if i ≤ k ∧ k < j then l[k + 1]?
      else if j < k ∧ k ≤ i then l[k - 1]?
      else l[k]? := by
  have hlen : (l.eraseIdx i).length = l.length - 1 := List.length_eraseIdx_of_lt hi
  have hm : min j (l.length - 1) = j := by omega
  rw [insertIdx_eq_take_drop x j _ (by omega)]
  simp only [List.getElem?_append, List.length_take, hlen, getElem?_cons_ite, List.getElem?_take,
    List.getElem?_drop, List.getElem?_eraseIdx, hm]
  split_ifs <;> first
    | rfl
    | (exfalso; omega)
    | (congr 1; omega)

theorem length_eraseIdx_insertIdx (l : List α) (i j : Nat) (x : α)
    (hi : i < l.length) (hj : j < l.length) :
    ((l.eraseIdx i).insertIdx j x).length = l.length := by
  have hlen : (l.eraseIdx i).length = l.length - 1 := List.length_eraseIdx_of_lt hi
  rw [List.length_insertIdx _ _ (by omega), hlen]
  omega

theorem getElem?_insertIdx_ite (l : List α) (n : Nat) (x : α) (hn : n ≤ l.length) (k : Nat) :
    (l.insertIdx n x)[k]? = if k < n then l[k]? else if k = n then some x else l[k - 1]? := by
  have hm : min n l.length = n := by omega
  rw [insertIdx_eq_take_drop x n l hn]
  simp only [List.getElem?_append, List.length_take, getElem?_cons_ite, List.getElem?_take,
    List.getElem?_drop, hm]
  split_ifs <;> first
    | rfl
    | (exfalso; omega)
    | (congr 1; omega)

end ListLemmas

/-! ## The `QList` member functions on valid positions -/

section QListLemmas

variable {α : Type}

theorem QList.at_eq_some (l : List α) (i : Int) (h0 : 0 ≤ i) (h1 : i < QList.count l) :
    ∃ x, l[i.toNat]? = some x ∧ QList.at_ l i = some x := by
  have hlt : i.toNat < l.length := by
    unfold QList.count at h1; omega
  refine ⟨l[i.toNat], List.getElem?_eq_getElem hlt, ?_⟩
  simp [QList.at_, h0, h1, List.getElem?_eq_getElem hlt]

theorem QList.removeAt_eq_eraseIdx (l : List α) (i : Int) (h0 : 0 ≤ i) (h1 : i < QList.count l) :
    QList.removeAt l i = some (l.eraseIdx i.toNat) := by
  simp [QList.removeAt, h0, h1, List.eraseIdx_eq_take_drop_succ]

theorem QList.takeAt_eq (l : List α) (i : Int) (h0 : 0 ≤ i) (h1 : i < QList.count l) :
    ∃ x, l[i.toNat]? = some x ∧ QList.takeAt l i = some (x, l.eraseIdx i.toNat) := by
  obtain ⟨x, hx, hat⟩ := QList.at_eq_some l i h0 h1
  exact ⟨x, hx, by simp [QList.takeAt, hat, QList.removeAt_eq_eraseIdx l i h0 h1]⟩

theorem QList.insert_eq_insertIdx (l : List α) (i : Int) (v : α) (h0 : 0 ≤ i)
    (h1 : i ≤ QList.count l) :
    QList.insert l i v = some (l.insertIdx i.toNat v) := by
  have hle : i.toNat ≤ l.length := by
    unfold QList.count at h1; omega
  simp [QList.insert, h0, h1, insertIdx_eq_take_drop v _ l hle]

theorem QList.move_eq (l : List α) (s t : Int) (hs0 : 0 ≤ s) (hs : s < QList.count l)
    (ht0 : 0 ≤ t) (ht : t < QList.count l) :
    ∃ x, l[s.toNat]? = some x ∧
      QList.move l s t = some (if s = t then l else (l.eraseIdx s.toNat).insertIdx t.toNat x) := by
  have hsl : s.toNat < l.length := by unfold QList.count at hs; omega
  have htl : t.toNat < l.length := by unfold QList.count at ht; omega
  have hx : l[s.toNat]? = some l[s.toNat] := List.getElem?_eq_getElem hsl
  refine ⟨l[s.toNat], hx, ?_⟩
  have hlen : (l.eraseIdx s.toNat).length = l.length - 1 := List.length_eraseIdx_of_lt hsl
  simp only [QList.move, hs0, hs, ht0, ht, and_self, if_true, hx]
  by_cases hst : s = t
  · simp [hst]
  · simp only [hst, if_false]
    by_cases hlt : s < t
    · simp only [hlt, if_true]
      congr 1
      apply List.ext_getElem?
      intro k
      rw [getElem?_eraseIdx_insertIdx l _ _ _ hsl htl]
      have hm : min (t.toNat - s.toNat) (l.length - (s.toNat + 1)) = t.toNat - s.toNat := by omega
      simp only [List.getElem?_append, List.length_take, List.length_append, List.length_drop,
        getElem?_cons_ite, List.getElem?_take, List.getElem?_drop, hm]
      have hm2 : min s.toNat l.length = s.toNat := by omega
      simp only [hm2]
      split_ifs <;> first
        | rfl
        | (exfalso; omega)
        | (congr 1; omega)
    · simp only [hlt, if_false]
      congr 1
      apply List.ext_getElem?
      intro k
      rw [getElem?_eraseIdx_insertIdx l _ _ _ hsl htl]
      have hm : min (s.toNat - t.toNat) (l.length - t.toNat) = s.toNat - t.toNat := by omega
      have hm2 : min t.toNat l.length = t.toNat := by omega
      simp only [List.getElem?_append, List.length_take, List.length_append, List.length_drop,
        List.length_cons, getElem?_cons_ite, List.getElem?_take, List.getElem?_drop, hm, hm2]
      split_ifs <;> first
        | rfl
        | (exfalso; omega)
        | (congr 1; omega)

end QListLemmas

/-! ## ButtonsModel: the list after each member function -/

open DecorationButtonType

/-- C1: for every button list and every integer row, `ButtonsModel::remove`
returns; with `0 <= row < count` the new list is the old one with the element
at position `row` deleted (positions below `row` keep their element, every
later element moves down by one, the count drops by one), and with any other
row the list is left unchanged. -/
theorem remove_deletes_row (m : ButtonsModel) (row : Int) :
    ∃ m1 calls, m.remove row = some (m1, calls) ∧
      if 0 ≤ row ∧ row < m.count then
        m1.m_buttons = m.m_buttons.eraseIdx row.toNat ∧
        m1.count = m.count - 1 ∧
        ∀ j : Nat, m1.m_buttons[j]? =
          if (j : Int) < row then m.m_buttons[j]? else m.m_buttons[j + 1]?
      else m1 = m := by
  by_cases hv : 0 ≤ row ∧ row < m.count
  · obtain ⟨h0, h1⟩ := hv
    have hrm := QList.removeAt_eq_eraseIdx m.m_buttons row h0 h1
    have hlt : row.toNat < m.m_buttons.length := by
      simp only [ButtonsModel.count, QList.count] at h1; omega
    have hg : ¬ (row < 0 ∨ row ≥ m.count) := by omega
    simp only [ButtonsModel.remove, hg, if_false, hrm]
    refine ⟨_, _, rfl, ?_⟩
    · simp only [h0, h1, and_self, if_true]
      refine ⟨trivial, ?_, ?_⟩
      · simp only [ButtonsModel.count, QList.count, List.length_eraseIdx_of_lt hlt]
        omega
      · intro j
        rw [List.getElem?_eraseIdx]
        by_cases hj : j < row.toNat
        · have : (j : Int) < row := by omega
          simp [hj, this]
        · have : ¬ (j : Int) < row := by omega
          simp [hj, this]
  · refine ⟨m, [], ?_, ?_⟩
    · have hg : row < 0 ∨ row ≥ m.count := by omega
      simp only [ButtonsModel.remove, hg, if_true]
    · simp only [hv, if_false]

/-- C2: for every button list, every valid source row and every target index
below the count, `ButtonsModel::move` returns the list obtained by taking the
element of `sourceIndex` out and reinserting it at `max(0, targetIndex)`: the
count is unchanged, the moved element is at position `max(0, targetIndex)`,
the other elements keep their relative order, and with
`sourceIndex = max(0, targetIndex)` the list is unchanged. -/
theorem move_reinserts_at_target (m : ButtonsModel) (sourceIndex targetIndex : Int)
    (hs0 : 0 ≤ sourceIndex) (hs : sourceIndex < m.count) (ht : targetIndex < m.count) :
    ∃ m1 calls x, m.move sourceIndex targetIndex = some (m1, calls) ∧
      m.m_buttons[sourceIndex.toNat]? = some x ∧
      m1.m_buttons = (m.m_buttons.eraseIdx sourceIndex.toNat).insertIdx (max 0 targetIndex).toNat x ∧
      m1.count = m.count ∧
      m1.m_buttons[(max 0 targetIndex).toNat]? = some x ∧
      m1.m_buttons.eraseIdx (max 0 targetIndex).toNat = m.m_buttons.eraseIdx sourceIndex.toNat ∧
      (sourceIndex = max 0 targetIndex → m1 = m) := by
  have ht0 : 0 ≤ max 0 targetIndex := le_max_left _ _
  have ht1 : max 0 targetIndex < m.count := by
    rcases max_cases 0 targetIndex with ⟨h, _⟩ | ⟨h, _⟩ <;> omega
  obtain ⟨x, hx, hmv⟩ := QList.move_eq m.m_buttons sourceIndex (max 0 targetIndex) hs0 hs ht0 ht1
  have hsl : sourceIndex.toNat < m.m_buttons.length := by
    simp only [ButtonsModel.count, QList.count] at hs; omega
  have htl : (max 0 targetIndex).toNat < m.m_buttons.length := by
    simp only [ButtonsModel.count, QList.count] at ht1; omega
  have hlen : (m.m_buttons.eraseIdx sourceIndex.toNat).length = m.m_buttons.length - 1 :=
    List.length_eraseIdx_of_lt hsl
  have hself : (m.m_buttons.eraseIdx sourceIndex.toNat).insertIdx sourceIndex.toNat x
      = m.m_buttons := by
    apply List.ext_getElem?
    intro k
    rw [getElem?_eraseIdx_insertIdx _ _ _ _ hsl hsl]
    split_ifs <;> first
      | rfl
      | (exfalso; omega)
      | (subst_vars; exact hx.symm)
  have hkey : ∀ r : List DecorationButtonType,
      r = (m.m_buttons.eraseIdx sourceIndex.toNat).insertIdx (max 0 targetIndex).toNat x →
      QList.count r = m.count ∧ r[(max 0 targetIndex).toNat]? = some x ∧
        r.eraseIdx (max 0 targetIndex).toNat = m.m_buttons.eraseIdx sourceIndex.toNat := by
    intro r hr
    subst hr
    refine ⟨?_, ?_, List.eraseIdx_insertIdx _ _⟩
    · simp only [ButtonsModel.count, QList.count,
        length_eraseIdx_insertIdx _ _ _ _ hsl htl]
    · rw [getElem?_eraseIdx_insertIdx _ _ _ _ hsl htl]
      simp
  by_cases heq : sourceIndex = max 0 targetIndex
  · refine ⟨m, [], x, ?_, hx, ?_, rfl, ?_, ?_, fun _ => rfl⟩
    · simp only [ButtonsModel.move, heq, if_true]
    · rw [← heq, hself]
    · rw [← heq]; exact hx
    · rw [← heq]
  · simp only [heq, if_false] at hmv
    obtain ⟨h1, h2, h3⟩ := hkey _ rfl
    simp only [ButtonsModel.move, heq, if_false, hmv]
    exact ⟨_, _, x, rfl, hx, rfl, h1, h2, h3, fun h => h.elim⟩

/-- Witness of C2 on a four-button list: row 0 moved to row 2. -/
theorem move_reinserts_at_target_witness :
    ((0 : Int) ≤ 0 ∧ (0 : Int) < (ButtonsModel.mk [Menu, Close, Shade, Minimize]).count ∧
      (2 : Int) < (ButtonsModel.mk [Menu, Close, Shade, Minimize]).count) ∧
    ∃ m1 calls x,
      ButtonsModel.move ⟨[Menu, Close, Shade, Minimize]⟩ 0 2 = some (m1, calls) ∧
      (ButtonsModel.mk [Menu, Close, Shade, Minimize]).m_buttons[(0 : Int).toNat]? = some x ∧
      m1.m_buttons = ((ButtonsModel.mk [Menu, Close, Shade, Minimize]).m_buttons.eraseIdx
        (0 : Int).toNat).insertIdx (max 0 (2 : Int)).toNat x ∧
      m1.count = (ButtonsModel.mk [Menu, Close, Shade, Minimize]).count ∧
      m1.m_buttons[(max 0 (2 : Int)).toNat]? = some x ∧
      m1.m_buttons.eraseIdx (max 0 (2 : Int)).toNat =
        (ButtonsModel.mk [Menu, Close, Shade, Minimize]).m_buttons.eraseIdx (0 : Int).toNat ∧
      ((0 : Int) = max 0 2 → m1 = ButtonsModel.mk [Menu, Close, Shade, Minimize]) :=
  ⟨⟨by decide, by decide, by decide⟩,
    move_reinserts_at_target ⟨[Menu, Close, Shade, Minimize]⟩ 0 2 (by decide) (by decide)
      (by decide)⟩

/-- C3: with `0 <= index < count - 1` (so the list has at least two elements)
`ButtonsModel::down` returns the list in which the elements of positions
`index` and `index + 1` are exchanged and every other position is unchanged;
with `index = count - 1`, or fewer than two elements, the list is unchanged. -/
theorem down_exchanges_with_next (m : ButtonsModel) (index : Int) :
    (0 ≤ index ∧ index < m.count - 1 →
      ∃ m1 calls, m.down index = some (m1, calls) ∧ m1.count = m.count ∧
        ∀ j : Nat, m1.m_buttons[j]? =
          if (j : Int) = index then m.m_buttons[j + 1]?
          else if (j : Int) = index + 1 then m.m_buttons[j - 1]?
          else m.m_buttons[j]?) ∧
    (m.count < 2 ∨ index = m.count - 1 → m.down index = some (m, [])) := by
  constructor
  · rintro ⟨h0, h1⟩
    have hc : index < m.count := by omega
    obtain ⟨x, hx, htake⟩ := QList.takeAt_eq m.m_buttons index h0 hc
    have hsl : index.toNat < m.m_buttons.length := by
      simp only [ButtonsModel.count, QList.count] at hc; omega
    have hjl : index.toNat + 1 < m.m_buttons.length := by
      simp only [ButtonsModel.count, QList.count] at h1; omega
    have hlen : (m.m_buttons.eraseIdx index.toNat).length = m.m_buttons.length - 1 :=
      List.length_eraseIdx_of_lt hsl
    have hins := QList.insert_eq_insertIdx (m.m_buttons.eraseIdx index.toNat) (index + 1) x
      (by omega) (by simp only [QList.count, hlen]; omega)
    have hg : ¬ (m.count < 2 ∨ index = m.count - 1) := by omega
    have hn : (index + 1).toNat = index.toNat + 1 := by omega
    simp only [ButtonsModel.down, hg, if_false, htake, hins, hn]
    refine ⟨_, _, rfl, ?_, ?_⟩
    · simp only [ButtonsModel.count, QList.count,
        length_eraseIdx_insertIdx _ _ _ _ hsl hjl]
    · intro j
      rw [getElem?_eraseIdx_insertIdx _ _ _ _ hsl hjl]
      have e1 : ((j : Int) = index) ↔ j = index.toNat := by omega
      have e2 : ((j : Int) = index + 1) ↔ j = index.toNat + 1 := by omega
      simp only [e1, e2]
      split_ifs <;> first
        | rfl
        | (exfalso; omega)
        | (subst_vars; simpa using hx.symm)
  · intro hg
    simp only [ButtonsModel.down, hg, if_true]

/-- Witness of C3: on three buttons `down(0)` exchanges rows 0 and 1, and
`down(2)` on the last row changes nothing. -/
theorem down_exchanges_with_next_witness :
    ((0 : Int) ≤ 0 ∧ (0 : Int) < (ButtonsModel.mk [Menu, Close, Shade]).count - 1) ∧
    (∃ m1 calls, ButtonsModel.down ⟨[Menu, Close, Shade]⟩ 0 = some (m1, calls) ∧
      m1.count = (ButtonsModel.mk [Menu, Close, Shade]).count ∧
      ∀ j : Nat, m1.m_buttons[j]? =
        if (j : Int) = 0 then (ButtonsModel.mk [Menu, Close, Shade]).m_buttons[j + 1]?
        else if (j : Int) = 0 + 1 then (ButtonsModel.mk [Menu, Close, Shade]).m_buttons[j - 1]?
        else (ButtonsModel.mk [Menu, Close, Shade]).m_buttons[j]?) ∧
    ButtonsModel.down ⟨[Menu, Close, Shade]⟩ 2 = some (⟨[Menu, Close, Shade]⟩, []) :=
  ⟨⟨by decide, by decide⟩,
    (down_exchanges_with_next ⟨[Menu, Close, Shade]⟩ 0).1 ⟨by decide, by decide⟩,
    (down_exchanges_with_next ⟨[Menu, Close, Shade]⟩ 2).2 (Or.inr (by decide))⟩

/-- C4: with `1 <= index < count` (so the list has at least two elements)
`ButtonsModel::up` returns the list in which the elements of positions
`index - 1` and `index` are exchanged and every other position is unchanged;
with `index = 0`, or fewer than two elements, the list is unchanged. -/
theorem up_exchanges_with_previous (m : ButtonsModel) (index : Int) :
    (1 ≤ index ∧ index < m.count →
      ∃ m1 calls, m.up index = some (m1, calls) ∧ m1.count = m.count ∧
        ∀ j : Nat, m1.m_buttons[j]? =
          if (j : Int) = index - 1 then m.m_buttons[j + 1]?
          else if (j : Int) = index then m.m_buttons[j - 1]?
          else m.m_buttons[j]?) ∧
    (m.count < 2 ∨ index = 0 → m.up index = some (m, [])) := by
  constructor
  · rintro ⟨h0, hc⟩
    obtain ⟨x, hx, htake⟩ := QList.takeAt_eq m.m_buttons index (by omega) hc
    have hsl : index.toNat < m.m_buttons.length := by
      simp only [ButtonsModel.count, QList.count] at hc; omega
    have hjl : index.toNat - 1 < m.m_buttons.length := by omega
    have hlen : (m.m_buttons.eraseIdx index.toNat).length = m.m_buttons.length - 1 :=
      List.length_eraseIdx_of_lt hsl
    have hins := QList.insert_eq_insertIdx (m.m_buttons.eraseIdx index.toNat) (index - 1) x
      (by omega) (by simp only [QList.count, hlen]; omega)
    have hg : ¬ (m.count < 2 ∨ index = 0) := by
      simp only [ButtonsModel.count, QList.count] at hc ⊢; omega
    have hn : (index - 1).toNat = index.toNat - 1 := by omega
    simp only [ButtonsModel.up, hg, if_false, htake, hins, hn]
    refine ⟨_, _, rfl, ?_, ?_⟩
    · simp only [ButtonsModel.count, QList.count,
        length_eraseIdx_insertIdx _ _ _ _ hsl hjl]
    · intro j
      rw [getElem?_eraseIdx_insertIdx _ _ _ _ hsl hjl]
      have e1 : ((j : Int) = index - 1) ↔ j = index.toNat - 1 := by omega
      have e2 : ((j : Int) = index) ↔ j = index.toNat := by omega
      have hnn : index.toNat - 1 + 1 = index.toNat := by omega
      simp only [e1, e2]
      split_ifs <;> first
        | rfl
        | (exfalso; omega)
        | (subst_vars; rw [hnn]; exact hx.symm)
  · intro hg
    simp only [ButtonsModel.up, hg, if_true]

/-- Witness of C4: on three buttons `up(2)` exchanges rows 1 and 2, and `up(0)`
changes nothing. -/
theorem up_exchanges_with_previous_witness :
    ((1 : Int) ≤ 2 ∧ (2 : Int) < (ButtonsModel.mk [Menu, Close, Shade]).count) ∧
    (∃ m1 calls, ButtonsModel.up ⟨[Menu, Close, Shade]⟩ 2 = some (m1, calls) ∧
      m1.count = (ButtonsModel.mk [Menu, Close, Shade]).count ∧
      ∀ j : Nat, m1.m_buttons[j]? =
        if (j : Int) = 2 - 1 then (ButtonsModel.mk [Menu, Close, Shade]).m_buttons[j + 1]?
        else if (j : Int) = 2 then (ButtonsModel.mk [Menu, Close, Shade]).m_buttons[j - 1]?
        else (ButtonsModel.mk [Menu, Close, Shade]).m_buttons[j]?) ∧
    ButtonsModel.up ⟨[Menu, Close, Shade]⟩ 0 = some (⟨[Menu, Close, Shade]⟩, []) :=
  ⟨⟨by decide, by decide⟩,
    (up_exchanges_with_previous ⟨[Menu, Close, Shade]⟩ 2).1 ⟨by decide, by decide⟩,
    (up_exchanges_with_previous ⟨[Menu, Close, Shade]⟩ 0).2 (Or.inr rfl)⟩

/-- C5: with `-1 <= index < count`, `ButtonsModel::add(index, type)` inserts
the button directly after row `index`: the new element is at position
`index + 1`, the positions up to `index` keep their element, every element
of a position above `index` moves up by one, the count grows by one; and
`add(count - 1, type)` gives what the appending overload `add(type)` gives. -/
theorem addAt_inserts_after_row (m : ButtonsModel) (index type : Int)
    (h0 : -1 ≤ index) (h1 : index < m.count) :
    ∃ m1 calls, m.addAt index type = some (m1, calls) ∧
      m1.count = m.count + 1 ∧
      m1.m_buttons[(index + 1).toNat]? = some ⟨type⟩ ∧
      (∀ j : Nat, (j : Int) ≤ index → m1.m_buttons[j]? = m.m_buttons[j]?) ∧
      (∀ j : Nat, index < (j : Int) → m1.m_buttons[j + 1]? = m.m_buttons[j]?) ∧
      (index = m.count - 1 → (m1, calls) = m.add ⟨type⟩) := by
  have hle : (index + 1).toNat ≤ m.m_buttons.length := by
    simp only [ButtonsModel.count, QList.count] at h1; omega
  have hins := QList.insert_eq_insertIdx m.m_buttons (index + 1) (⟨type⟩ : DecorationButtonType)
    (by omega) (by simp only [ButtonsModel.count] at h1; omega)
  simp only [ButtonsModel.addAt, hins]
  refine ⟨_, _, rfl, ?_, ?_, ?_, ?_, ?_⟩
  · simp only [ButtonsModel.count, QList.count, List.length_insertIdx _ _ hle]
    omega
  · rw [getElem?_insertIdx_ite _ _ _ hle]; simp
  · intro j hj
    rw [getElem?_insertIdx_ite _ _ _ hle]
    have : j < (index + 1).toNat := by omega
    simp [this]
  · intro j hj
    rw [getElem?_insertIdx_ite _ _ _ hle]
    have a1 : ¬ (j + 1 < (index + 1).toNat) := by omega
    have a2 : ¬ (j + 1 = (index + 1).toNat) := by omega
    simp [a1, a2]
  · intro he
    have hn : (index + 1).toNat = m.m_buttons.length := by
      simp only [ButtonsModel.count, QList.count] at he; omega
    have hc : index + 1 = m.count := by omega
    simp only [ButtonsModel.add, QList.append, hc]
    rw [← hc, hn, List.insertIdx_length_self]

/-- Witness of C5: inserting button type 7 after row 1 of a three-button list. -/
theorem addAt_inserts_after_row_witness :
    ((-1 : Int) ≤ 1 ∧ (1 : Int) < (ButtonsModel.mk [Menu, Close, Shade]).count) ∧
    ∃ m1 calls, ButtonsModel.addAt ⟨[Menu, Close, Shade]⟩ 1 7 = some (m1, calls) ∧
      m1.count = (ButtonsModel.mk [Menu, Close, Shade]).count + 1 ∧
      m1.m_buttons[((1 : Int) + 1).toNat]? = some ⟨7⟩ ∧
      (∀ j : Nat, (j : Int) ≤ 1 →
        m1.m_buttons[j]? = (ButtonsModel.mk [Menu, Close, Shade]).m_buttons[j]?) ∧
      (∀ j : Nat, 1 < (j : Int) →
        m1.m_buttons[j + 1]? = (ButtonsModel.mk [Menu, Close, Shade]).m_buttons[j]?) ∧
      ((1 : Int) = (ButtonsModel.mk [Menu, Close, Shade]).count - 1 →
        (m1, calls) = (ButtonsModel.mk [Menu, Close, Shade]).add ⟨7⟩) :=
  ⟨⟨by decide, by decide⟩,
    addAt_inserts_after_row ⟨[Menu, Close, Shade]⟩ 1 7 (by decide) (by decide)⟩

/-! ## ButtonsModel as a list model, PreviewSettings -/

/-- C6: `ButtonsModel` exposes its ordered button list: `rowCount` of a
non-valid (root) parent is the number of buttons; for a valid index of column
0 whose row `r` lies in `[0, count)`, `data` gives the integer of the `r`-th
button type for `Qt::UserRole` and the button's display name for
`Qt::DisplayRole`; for an invalid index, a row outside `[0, count)`, another
column or any other role, `data` gives the empty `QVariant`. -/
theorem data_exposes_button_list (i18n : String → String) (m : ButtonsModel)
    (index : QModelIndex) (role : Int) :
    (∀ parent : QModelIndex, parent.isValid = false →
      m.rowCount parent = (m.m_buttons.length : Int)) ∧
    (index.isValid = true ∧ 0 ≤ index.row ∧ index.row < m.count ∧ index.column = 0 →
      ∃ button, m.m_buttons[index.row.toNat]? = some button ∧
        m.data i18n index Qt.UserRole = QVariant.int button.toInt ∧
        m.data i18n index Qt.DisplayRole =
          QVariant.string (ButtonsModel.buttonToName i18n button)) ∧
    (index.isValid = false ∨ index.row < 0 ∨ m.count ≤ index.row ∨ index.column ≠ 0 ∨
        (role ≠ Qt.DisplayRole ∧ role ≠ Qt.UserRole) →
      m.data i18n index role = QVariant.invalid) := by
  refine ⟨?_, ?_, ?_⟩
  · intro parent hp
    simp [ButtonsModel.rowCount, hp, ButtonsModel.count, QList.count]
  · rintro ⟨hv, h0, h1, hc⟩
    obtain ⟨button, hb, hat⟩ := QList.at_eq_some m.m_buttons index.row h0 h1
    have hg : ¬ ((!index.isValid) = true ∨ index.row < 0 ∨ index.row ≥ m.count ∨
        index.column ≠ 0) := by
      simp only [hv, hc]
      simp
      omega
    refine ⟨button, hb, ?_, ?_⟩
    · simp only [ButtonsModel.data, hg, if_false, hat]
      simp [Qt.UserRole, Qt.DisplayRole]
    · simp only [ButtonsModel.data, hg, if_false, hat]
      simp
  · intro h
    by_cases hg : (!index.isValid) = true ∨ index.row < 0 ∨ index.row ≥ m.count ∨
        index.column ≠ 0
    · simp only [ButtonsModel.data, hg, if_true]
    · have hr : role ≠ Qt.DisplayRole ∧ role ≠ Qt.UserRole := by
        rcases h with h | h | h | h | h
        · exact absurd (Or.inl (by simp [h])) hg
        · exact absurd (Or.inr (Or.inl h)) hg
        · exact absurd (Or.inr (Or.inr (Or.inl h))) hg
        · exact absurd (Or.inr (Or.inr (Or.inr h))) hg
        · exact h
      simp only [ButtonsModel.data, hg, if_false]
      cases QList.at_ m.m_buttons index.row with
      | none => rfl
      | some button => simp [hr.1, hr.2]

/-- Witness of C6: row 1 of a three-button model, and a row outside it. -/
theorem data_exposes_button_list_witness :
    ButtonsModel.rowCount ⟨[Menu, Close, Shade]⟩ QModelIndex.invalid = 3 ∧
    (∃ button, (ButtonsModel.mk [Menu, Close, Shade]).m_buttons[(1 : Int).toNat]? = some button ∧
      ButtonsModel.data (fun msg => msg) ⟨[Menu, Close, Shade]⟩ ⟨1, 0, true⟩ Qt.UserRole
        = QVariant.int button.toInt ∧
      ButtonsModel.data (fun msg => msg) ⟨[Menu, Close, Shade]⟩ ⟨1, 0, true⟩ Qt.DisplayRole
        = QVariant.string (ButtonsModel.buttonToName (fun msg => msg) button)) ∧
    ButtonsModel.data (fun msg => msg) ⟨[Menu, Close, Shade]⟩ ⟨3, 0, true⟩ Qt.UserRole
      = QVariant.invalid :=
  ⟨(data_exposes_button_list (fun msg => msg) ⟨[Menu, Close, Shade]⟩ ⟨1, 0, true⟩ 0).1
      QModelIndex.invalid rfl,
    (data_exposes_button_list (fun msg => msg) ⟨[Menu, Close, Shade]⟩ ⟨1, 0, true⟩ 0).2.1
      ⟨rfl, by decide, by decide, rfl⟩,
    (data_exposes_button_list (fun msg => msg) ⟨[Menu, Close, Shade]⟩ ⟨3, 0, true⟩
      Qt.UserRole).2.2 (Or.inr (Or.inr (Or.inl (by decide))))⟩

/-- The index `QAbstractListModel::index(row)` of a buttons model is valid
exactly for the rows of the model, and then carries the row, column 0. -/
theorem index_of_buttons (m : ButtonsModel) (row : Int) :
    QAbstractListModel.index m.rowCount row =
      if 0 ≤ row ∧ row < m.count then ⟨row, 0, true⟩ else QModelIndex.invalid := by
  by_cases h : 0 ≤ row ∧ row < m.count
  · obtain ⟨h0, h1⟩ := h
    have hn : ¬ row < 0 := by omega
    simp [QAbstractListModel.index, QAbstractListModel.hasIndex,
      QAbstractListModel.columnCount, ButtonsModel.rowCount, QModelIndex.invalid,
      QModelIndex.isValid, h0, h1, hn]
  · simp only [h, if_false]
    by_cases hn : row < 0
    · simp [QAbstractListModel.index, QAbstractListModel.hasIndex, hn]
    · have h2 : ¬ row < m.count := by omega
      simp [QAbstractListModel.index, QAbstractListModel.hasIndex,
        QAbstractListModel.columnCount, ButtonsModel.rowCount, QModelIndex.invalid,
        QModelIndex.isValid, hn, h2]

/-- C7: for every `PreviewSettings` state and every integer row: when `row`
is a row of the available-buttons list, `addButtonToLeft` appends the button
type stored at that row to the end of the left list and changes no other
field, and `addButtonToRight` does the same with the right list; when `row`
is no such row, neither changes anything. -/
theorem addButton_appends_available_type {Font : Type} (s : PreviewSettings Font) (row : Int) :
    if 0 ≤ row ∧ row < s.m_availableButtons.count then
      ∃ type, s.m_availableButtons.m_buttons[row.toNat]? = some type ∧
        (s.addButtonToLeft row).1 =
          { s with m_leftButtons := ⟨s.m_leftButtons.m_buttons ++ [type]⟩ } ∧
        (s.addButtonToRight row).1 =
          { s with m_rightButtons := ⟨s.m_rightButtons.m_buttons ++ [type]⟩ }
    else s.addButtonToLeft row = (s, []) ∧ s.addButtonToRight row = (s, []) := by
  by_cases h : 0 ≤ row ∧ row < s.m_availableButtons.count
  · obtain ⟨h0, h1⟩ := h
    obtain ⟨type, ht, hat⟩ := QList.at_eq_some s.m_availableButtons.m_buttons row h0 h1
    have hn : ¬ row < 0 := by omega
    have hge : ¬ s.m_availableButtons.count ≤ row := by omega
    have hdata : (QModelIndex.mk row 0 true).data (s.m_availableButtons.data (fun msg => msg))
        Qt.UserRole = QVariant.int type.toInt := by
      simp [QModelIndex.data, ButtonsModel.data, QModelIndex.isValid, h0, hn, hge, hat,
        Qt.UserRole, Qt.DisplayRole]
    have hvalid : (QModelIndex.mk row 0 true).isValid = true := by
      simp [QModelIndex.isValid, h0]
    simp only [h0, h1, and_self, if_true]
    refine ⟨type, ht, ?_, ?_⟩
    · simp [PreviewSettings.addButtonToLeft, index_of_buttons, h0, h1, hvalid, hdata,
        QVariant.toButtonType, ButtonsModel.add, QList.append]
    · simp [PreviewSettings.addButtonToRight, index_of_buttons, h0, h1, hvalid, hdata,
        QVariant.toButtonType, ButtonsModel.add, QList.append]
  · have hinv : QModelIndex.invalid.isValid = false := by decide
    simp only [h, if_false]
    constructor
    · simp [PreviewSettings.addButtonToLeft, index_of_buttons, h, hinv]
    · simp [PreviewSettings.addButtonToRight, index_of_buttons, h, hinv]

/-- C8: each of the five property setters of `PreviewSettings`
(`setAlphaChannelSupported`, `setOnAllDesktopsAvailable`,
`setCloseOnDoubleClickOnMenu`, `setBorderSizesIndex`, `setFont`) meets the
contract `NotifiesIffChanged`: after `set(v)` the matching getter returns
`v`, no other data member is changed, the property's change signal is emitted
exactly when `v` differs from the value held before and carries the new
value, and a second `set(v)` emits nothing. -/
theorem setters_notify_iff_changed {Font : Type} [DecidableEq Font] :
    NotifiesIffChanged (PreviewSettings.setAlphaChannelSupported)
      (PreviewSettings.isAlphaChannelSupported)
      (fun (s : PreviewSettings Font) v => { s with m_alphaChannelSupported := v })
      (fun v => Emission.own (PreviewSignal.alphaChannelSupportedChanged v)) ∧
    NotifiesIffChanged (PreviewSettings.setOnAllDesktopsAvailable)
      (PreviewSettings.isOnAllDesktopsAvailable)
      (fun (s : PreviewSettings Font) v => { s with m_onAllDesktopsAvailable := v })
      (fun v => Emission.own (PreviewSignal.onAllDesktopsAvailableChanged v)) ∧
    NotifiesIffChanged (PreviewSettings.setCloseOnDoubleClickOnMenu)
      (PreviewSettings.isCloseOnDoubleClickOnMenu)
      (fun (s : PreviewSettings Font) v => { s with m_closeOnDoubleClick := v })
      (fun v => Emission.own (PreviewSignal.closeOnDoubleClickOnMenuChanged v)) ∧
    NotifiesIffChanged (PreviewSettings.setBorderSizesIndex)
      (PreviewSettings.borderSizesIndex)
      (fun (s : PreviewSettings Font) v => { s with m_borderSize := v })
      (fun v => Emission.own (PreviewSignal.borderSizesIndexChanged v)) ∧
    NotifiesIffChanged (PreviewSettings.setFont)
      (PreviewSettings.font)
      (fun (s : PreviewSettings Font) v => { s with m_font := v })
      (fun v => Emission.own (PreviewSignal.fontChanged v)) := by
  refine ⟨?_, ?_, ?_, ?_, ?_⟩
  · intro s v
    by_cases h : s.m_alphaChannelSupported = v
    · subst h
      simp [PreviewSettings.setAlphaChannelSupported, PreviewSettings.isAlphaChannelSupported]
    · have h2 : v ≠ s.m_alphaChannelSupported := fun e => h e.symm
      simp [PreviewSettings.setAlphaChannelSupported, PreviewSettings.isAlphaChannelSupported,
        h, h2]
  · intro s v
    by_cases h : s.m_onAllDesktopsAvailable = v
    · subst h
      simp [PreviewSettings.setOnAllDesktopsAvailable, PreviewSettings.isOnAllDesktopsAvailable]
    · have h2 : v ≠ s.m_onAllDesktopsAvailable := fun e => h e.symm
      simp [PreviewSettings.setOnAllDesktopsAvailable, PreviewSettings.isOnAllDesktopsAvailable,
        h, h2]
  · intro s v
    by_cases h : s.m_closeOnDoubleClick = v
    · subst h
      simp [PreviewSettings.setCloseOnDoubleClickOnMenu,
        PreviewSettings.isCloseOnDoubleClickOnMenu]
    · have h2 : v ≠ s.m_closeOnDoubleClick := fun e => h e.symm
      simp [PreviewSettings.setCloseOnDoubleClickOnMenu,
        PreviewSettings.isCloseOnDoubleClickOnMenu, h, h2]
  · intro s v
    by_cases h : s.m_borderSize = v
    · subst h
      simp [PreviewSettings.setBorderSizesIndex, PreviewSettings.borderSizesIndex]
    · have h2 : v ≠ s.m_borderSize := fun e => h e.symm
      simp [PreviewSettings.setBorderSizesIndex, PreviewSettings.borderSizesIndex, h, h2]
  · intro s v
    by_cases h : s.m_font = v
    · subst h
      simp [PreviewSettings.setFont, PreviewSettings.font]
    · have h2 : v ≠ s.m_font := fun e => h e.symm
      simp [PreviewSettings.setFont, PreviewSettings.font, h, h2]

/-- C9: the border-sizes list has the nine rows None, NoSides, Tiny, Normal,
Large, VeryLarge, Huge, VeryHuge, Oversized in this order; hence for every
`PreviewSettings` with this list and `borderSizesIndex = i`, `0 <= i <= 8`,
`borderSize()` is the border size of row `i`, whose integer value is `i`; a
freshly constructed `PreviewSettings` and a freshly constructed `Settings`
hold the same index, and that index selects `BorderSize::Normal`. -/
theorem borderSize_of_index {Font : Type} (s : PreviewSettings Font) (i : Int) (titleFont : Font)
    (hb : s.m_borderSizes = BorderSizesModel.new) (hi : s.borderSizesIndex = i)
    (h0 : 0 ≤ i) (h8 : i ≤ 8) :
    BorderSizesModel.new.m_borders =
      [BorderSize.None, BorderSize.NoSides, BorderSize.Tiny, BorderSize.Normal,
        BorderSize.Large, BorderSize.VeryLarge, BorderSize.Huge, BorderSize.VeryHuge,
        BorderSize.Oversized] ∧
    BorderSizesModel.new.rowCount QModelIndex.invalid = 9 ∧
    s.m_borderSizes.m_borders[i.toNat]? = some s.borderSize ∧
    s.borderSize.toInt = i ∧
    (PreviewSettings.new titleFont).borderSizesIndex = BorderSize.Normal.toInt ∧
    (PreviewSettings.new titleFont).borderSizesIndex
      = (Settings.new : Settings Font).borderSizesIndex ∧
    (PreviewSettings.new titleFont).borderSize = BorderSize.Normal := by
  have hi2 : s.m_borderSize = i := hi
  refine ⟨rfl, by decide, ?_, ?_, rfl, rfl, ?_⟩
  · simp only [PreviewSettings.borderSize, hb, hi2]
    interval_cases i <;> decide
  · simp only [PreviewSettings.borderSize, hb, hi2]
    interval_cases i <;> decide
  · simp only [PreviewSettings.borderSize, PreviewSettings.new]
    decide

/-- Witness of C9: a fresh `PreviewSettings` whose index was set to 8. -/
theorem borderSize_of_index_witness :
    (((PreviewSettings.new "title").setBorderSizesIndex 8).1.m_borderSizes = BorderSizesModel.new ∧
      ((PreviewSettings.new "title").setBorderSizesIndex 8).1.borderSizesIndex = 8 ∧
      (0 : Int) ≤ 8 ∧ (8 : Int) ≤ 8) ∧
    ((PreviewSettings.new "title").setBorderSizesIndex 8).1.borderSize.toInt = 8 ∧
    ((PreviewSettings.new "title").setBorderSizesIndex 8).1.borderSize = BorderSize.Oversized :=
  ⟨⟨rfl, rfl, by decide, by decide⟩,
    (borderSize_of_index ((PreviewSettings.new "title").setBorderSizesIndex 8).1 8 "title"
      rfl rfl (by decide) (by decide)).2.2.2.1,
    by decide⟩

/-! ## The announced row move -/

/-- Qt's move convention in terms of taking out and putting back: placing
row `s` before row `d` puts it at position `d - 1` when `s < d`, and at
position `d` otherwise. -/
theorem qtMoveRow_eq {α : Type} (l : List α) (s d : Int) (hs0 : 0 ≤ s) (hs : s < QList.count l)
    (hd0 : 0 ≤ d) (hd : d ≤ QList.count l) :
    ∃ x, l[s.toNat]? = some x ∧
      qtMoveRow l s d =
        some ((l.eraseIdx s.toNat).insertIdx (if s < d then d - 1 else d).toNat x) := by
  have hsl : s.toNat < l.length := by unfold QList.count at hs; omega
  have hdl : d.toNat ≤ l.length := by unfold QList.count at hd; omega
  have hx : l[s.toNat]? = some l[s.toNat] := List.getElem?_eq_getElem hsl
  refine ⟨l[s.toNat], hx, ?_⟩
  simp only [qtMoveRow, hs0, hs, hd0, hd, and_self, if_true, hx]
  by_cases hlt : s < d
  · simp only [hlt, if_true]
    congr 1
    apply List.ext_getElem?
    intro k
    have hjl : (d - 1).toNat < l.length := by omega
    rw [getElem?_eraseIdx_insertIdx l _ _ _ hsl hjl]
    have hm : min d.toNat l.length = d.toNat := by omega
    have hlen : ((l.take d.toNat).eraseIdx s.toNat).length = d.toNat - 1 := by
      rw [List.length_eraseIdx_of_lt (by rw [List.length_take, hm]; omega), List.length_take, hm]
    simp only [List.getElem?_append, hlen, getElem?_cons_ite, List.getElem?_take,
      List.getElem?_drop, List.getElem?_eraseIdx]
    split_ifs <;> first
      | rfl
      | (exfalso; omega)
      | (congr 1; omega)
  · simp only [hlt, if_false]
    congr 1
    apply List.ext_getElem?
    intro k
    have hjl : d.toNat < l.length := by omega
    rw [getElem?_eraseIdx_insertIdx l _ _ _ hsl hjl]
    have hm : min d.toNat l.length = d.toNat := by omega
    simp only [List.getElem?_append, List.length_take, hm, getElem?_cons_ite,
      List.getElem?_take, List.getElem?_drop, List.getElem?_eraseIdx]
    split_ifs <;> first
      | rfl
      | (exfalso; omega)
      | (congr 1; omega)

/-- C10: in `ButtonsModel::move`, `up` and `down` the row move announced with
`beginMoveRows` agrees with the mutation performed.  For every list, every
valid source row and every target below the count: unless the guard returns
early (no announcement, list unchanged), the call announces the move of the
source row to the destination `target + 1` when moving down and
`max(0, target)` (the target itself when it is in range) when moving up,
and placing the source row before that destination row of the old list, as
Qt's convention says, gives exactly the new button list. -/
theorem announced_move_agrees (m : ButtonsModel) (source target : Int)
    (hs0 : 0 ≤ source) (hs : source < m.count) (ht : target < m.count) :
    (if source = max 0 target then m.move source target = some (m, [])
      else ∃ m1, m.move source target = some (m1,
          [ModelCall.beginMoveRows source source
              (if target > source then target + 1 else max 0 target),
            ModelCall.endMoveRows]) ∧
        qtMoveRow m.m_buttons source (if target > source then target + 1 else max 0 target)
          = some m1.m_buttons) ∧
    (if m.count < 2 ∨ source = 0 then m.up source = some (m, [])
      else ∃ m1, m.up source = some (m1,
          [ModelCall.beginMoveRows source source (source - 1), ModelCall.endMoveRows]) ∧
        qtMoveRow m.m_buttons source (source - 1) = some m1.m_buttons) ∧
    (if m.count < 2 ∨ source = m.count - 1 then m.down source = some (m, [])
      else ∃ m1, m.down source = some (m1,
          [ModelCall.beginMoveRows source source (source + 2), ModelCall.endMoveRows]) ∧
        qtMoveRow m.m_buttons source (source + 2) = some m1.m_buttons) := by
  have hc : (m.count : Int) = (m.m_buttons.length : Int) := rfl
  have hq : QList.count m.m_buttons = m.count := rfl
  have hsl : source.toNat < m.m_buttons.length := by omega
  have hlen : (m.m_buttons.eraseIdx source.toNat).length = m.m_buttons.length - 1 :=
    List.length_eraseIdx_of_lt hsl
  refine ⟨?_, ?_, ?_⟩
  · by_cases heq : source = max 0 target
    · simp only [heq, if_true, ButtonsModel.move]
    · have ht0 : 0 ≤ max 0 target := le_max_left _ _
      have ht1 : max 0 target < m.count := by
        rcases max_cases 0 target with ⟨h, _⟩ | ⟨h, _⟩ <;> omega
      obtain ⟨x, hx, hmv⟩ := QList.move_eq m.m_buttons source (max 0 target) hs0 hs ht0 ht1
      simp only [heq, if_false] at hmv
      obtain ⟨y, hy, hqt⟩ := qtMoveRow_eq m.m_buttons source
        (if target > source then target + 1 else max 0 target) hs0 hs
        (by split_ifs <;> omega)
        (by rw [hq]; split_ifs <;> omega)
      have hxy : y = x := by
        rw [hx] at hy; exact (Option.some.inj hy).symm
      subst hxy
      have hpos : (if source < (if target > source then target + 1 else max 0 target)
          then (if target > source then target + 1 else max 0 target) - 1
          else (if target > source then target + 1 else max 0 target)) = max 0 target := by
        rcases max_cases 0 target with ⟨h1, _⟩ | ⟨h1, _⟩ <;> split_ifs <;> omega
      rw [hpos] at hqt
      simp only [heq, if_false, ButtonsModel.move, hmv]
      refine ⟨⟨(m.m_buttons.eraseIdx source.toNat).insertIdx (max 0 target).toNat y⟩, ?_, hqt⟩
      split_ifs <;> rfl
  · by_cases hg : m.count < 2 ∨ source = 0
    · simp only [hg, if_true, ButtonsModel.up]
    · obtain ⟨x, hx, htake⟩ := QList.takeAt_eq m.m_buttons source hs0 hs
      have hins := QList.insert_eq_insertIdx (m.m_buttons.eraseIdx source.toNat) (source - 1) x
        (by omega) (by simp only [QList.count, hlen]; omega)
      obtain ⟨y, hy, hqt⟩ := qtMoveRow_eq m.m_buttons source (source - 1) hs0 hs
        (by omega) (by omega)
      have hxy : y = x := by
        rw [hx] at hy; exact (Option.some.inj hy).symm
      subst hxy
      have hpos : (if source < source - 1 then source - 1 - 1 else source - 1) = source - 1 := by
        split_ifs <;> omega
      rw [hpos] at hqt
      simp only [hg, if_false, ButtonsModel.up, htake, hins]
      exact ⟨_, rfl, hqt⟩
  · by_cases hg : m.count < 2 ∨ source = m.count - 1
    · simp only [hg, if_true, ButtonsModel.down]
    · obtain ⟨x, hx, htake⟩ := QList.takeAt_eq m.m_buttons source hs0 hs
      have hins := QList.insert_eq_insertIdx (m.m_buttons.eraseIdx source.toNat) (source + 1) x
        (by omega) (by simp only [QList.count, hlen]; omega)
      obtain ⟨y, hy, hqt⟩ := qtMoveRow_eq m.m_buttons source (source + 2) hs0 hs
        (by omega) (by omega)
      have hxy : y = x := by
        rw [hx] at hy; exact (Option.some.inj hy).symm
      subst hxy
      have hpos : (if source < source + 2 then source + 2 - 1 else source + 2) = source + 1 := by
        split_ifs <;> omega
      rw [hpos] at hqt
      simp only [hg, if_false, ButtonsModel.down, htake, hins]
      exact ⟨_, rfl, hqt⟩

/-- Witness of C10 on a four-button list: `move(1, 3)` announces destination
4, `up(1)` destination 0 and `down(1)` destination 3. -/
theorem announced_move_agrees_witness :
    ((0 : Int) ≤ 1 ∧ (1 : Int) < (ButtonsModel.mk [Menu, Close, Shade, Minimize]).count ∧
      (3 : Int) < (ButtonsModel.mk [Menu, Close, Shade, Minimize]).count) ∧
    (ButtonsModel.move ⟨[Menu, Close, Shade, Minimize]⟩ 1 3 =
        some (⟨[Menu, Shade, Minimize, Close]⟩,
          [ModelCall.beginMoveRows 1 1 4, ModelCall.endMoveRows]) ∧
      qtMoveRow [Menu, Close, Shade, Minimize] 1 4 = some [Menu, Shade, Minimize, Close]) ∧
    ((if (1 : Int) = max 0 3 then
        ButtonsModel.move ⟨[Menu, Close, Shade, Minimize]⟩ 1 3
          = some (⟨[Menu, Close, Shade, Minimize]⟩, [])
      else ∃ m1, ButtonsModel.move ⟨[Menu, Close, Shade, Minimize]⟩ 1 3 = some (m1,
          [ModelCall.beginMoveRows 1 1 (if (3 : Int) > 1 then 3 + 1 else max 0 3),
            ModelCall.endMoveRows]) ∧
        qtMoveRow (ButtonsModel.mk [Menu, Close, Shade, Minimize]).m_buttons 1
          (if (3 : Int) > 1 then 3 + 1 else max 0 3) = some m1.m_buttons)) :=
  ⟨⟨by decide, by decide, by decide⟩, ⟨by decide, by decide⟩,
    (announced_move_agrees ⟨[Menu, Close, Shade, Minimize]⟩ 1 3 (by decide) (by decide)
      (by decide)).1⟩

/-! ## The member functions of ButtonsModel on in-range arguments -/

/-- Putting the item taken out of position `i` back at position `i` gives the
list back. -/
theorem insertIdx_eraseIdx_self {α : Type} (l : List α) (i : Nat) (x : α)
    (hx : l[i]? = some x) (hi : i < l.length) :
    (l.eraseIdx i).insertIdx i x = l := by
  apply List.ext_getElem?
  intro k
  rw [getElem?_eraseIdx_insertIdx _ _ _ _ hi hi]
  split_ifs <;> first
    | rfl
    | (exfalso; omega)
    | (subst_vars; exact hx.symm)

/-- Taking the item of position `i` out and putting it at position `j`, then
taking the item of position `j` out and putting it at position `i`, gives the
list back. -/
theorem eraseIdx_insertIdx_roundtrip {α : Type} (l : List α) (i j : Nat) (x : α)
    (hx : l[i]? = some x) (hi : i < l.length) (hj : j < l.length) :
    ((l.eraseIdx i).insertIdx j x)[j]? = some x ∧
      ((((l.eraseIdx i).insertIdx j x).eraseIdx j).insertIdx i x) = l := by
  constructor
  · rw [getElem?_eraseIdx_insertIdx _ _ _ _ hi hj]; simp
  · rw [List.eraseIdx_insertIdx, insertIdx_eraseIdx_self l i x hx hi]

theorem buttons_count_eq (m : ButtonsModel) : m.count = (m.m_buttons.length : Int) := rfl

theorem buttons_remove_eq (m : ButtonsModel) (row : Int) (h0 : 0 ≤ row) (h1 : row < m.count) :
    m.remove row = some (⟨m.m_buttons.eraseIdx row.toNat⟩,
      [ModelCall.beginRemoveRows row row, ModelCall.endRemoveRows]) := by
  have hg : ¬ (row < 0 ∨ row ≥ m.count) := by omega
  simp only [ButtonsModel.remove, hg, if_false,
    QList.removeAt_eq_eraseIdx m.m_buttons row h0 h1]

theorem buttons_remove_guard (m : ButtonsModel) (row : Int) (h : row < 0 ∨ m.count ≤ row) :
    m.remove row = some (m, []) := by
  have hg : row < 0 ∨ row ≥ m.count := by omega
  simp only [ButtonsModel.remove, hg, if_true]

theorem buttons_down_eq (m : ButtonsModel) (index : Int) (h0 : 0 ≤ index)
    (h1 : index < m.count - 1) :
    ∃ x, m.m_buttons[index.toNat]? = some x ∧
      m.down index = some (⟨(m.m_buttons.eraseIdx index.toNat).insertIdx (index.toNat + 1) x⟩,
        [ModelCall.beginMoveRows index index (index + 2), ModelCall.endMoveRows]) := by
  have hc := buttons_count_eq m
  obtain ⟨x, hx, htake⟩ := QList.takeAt_eq m.m_buttons index h0 (by
    show index < m.count
    omega)
  have hlen : (m.m_buttons.eraseIdx index.toNat).length = m.m_buttons.length - 1 :=
    List.length_eraseIdx_of_lt (by omega)
  have hins := QList.insert_eq_insertIdx (m.m_buttons.eraseIdx index.toNat) (index + 1) x
    (by omega) (by simp only [QList.count, hlen]; omega)
  have hg : ¬ (m.count < 2 ∨ index = m.count - 1) := by omega
  have hn : (index + 1).toNat = index.toNat + 1 := by omega
  exact ⟨x, hx, by simp only [ButtonsModel.down, hg, if_false, htake, hins, hn]⟩

theorem buttons_up_eq (m : ButtonsModel) (index : Int) (h0 : 1 ≤ index) (h1 : index < m.count) :
    ∃ x, m.m_buttons[index.toNat]? = some x ∧
      m.up index = some (⟨(m.m_buttons.eraseIdx index.toNat).insertIdx (index.toNat - 1) x⟩,
        [ModelCall.beginMoveRows index index (index - 1), ModelCall.endMoveRows]) := by
  have hc := buttons_count_eq m
  obtain ⟨x, hx, htake⟩ := QList.takeAt_eq m.m_buttons index (by omega) h1
  have hlen : (m.m_buttons.eraseIdx index.toNat).length = m.m_buttons.length - 1 :=
    List.length_eraseIdx_of_lt (by omega)
  have hins := QList.insert_eq_insertIdx (m.m_buttons.eraseIdx index.toNat) (index - 1) x
    (by omega) (by simp only [QList.count, hlen]; omega)
  have hg : ¬ (m.count < 2 ∨ index = 0) := by omega
  have hn : (index - 1).toNat = index.toNat - 1 := by omega
  exact ⟨x, hx, by simp only [ButtonsModel.up, hg, if_false, htake, hins, hn]⟩

theorem buttons_move_eq (m : ButtonsModel) (source target : Int) (hs0 : 0 ≤ source)
    (hs : source < m.count) (ht : target < m.count) (hne : source ≠ max 0 target) :
    ∃ x, m.m_buttons[source.toNat]? = some x ∧
      m.move source target =
        some (⟨(m.m_buttons.eraseIdx source.toNat).insertIdx (max 0 target).toNat x⟩,
          [ModelCall.beginMoveRows source source
              (if target > source then target + 1 else max 0 target),
            ModelCall.endMoveRows]) := by
  have ht0 : 0 ≤ max 0 target := le_max_left _ _
  have ht1 : max 0 target < m.count := by
    rcases max_cases 0 target with ⟨h, _⟩ | ⟨h, _⟩ <;> omega
  obtain ⟨x, hx, hmv⟩ := QList.move_eq m.m_buttons source (max 0 target) hs0 hs ht0 ht1
  simp only [hne, if_false] at hmv
  refine ⟨x, hx, ?_⟩
  simp only [ButtonsModel.move, hne, if_false, hmv]
  split_ifs <;> rfl

theorem buttons_move_guard (m : ButtonsModel) (source target : Int)
    (h : source = max 0 target) : m.move source target = some (m, []) := by
  simp only [ButtonsModel.move, h, if_true]

theorem buttons_addAt_eq (m : ButtonsModel) (index type : Int) (h0 : -1 ≤ index)
    (h1 : index < m.count) :
    m.addAt index type =
      some (⟨m.m_buttons.insertIdx (index + 1).toNat ⟨type⟩⟩,
        [ModelCall.beginInsertRows (index + 1) (index + 1), ModelCall.endInsertRows]) := by
  have hc := buttons_count_eq m
  have hins := QList.insert_eq_insertIdx m.m_buttons (index + 1)
    (⟨type⟩ : DecorationButtonType) (by omega) (by simp only [QList.count]; omega)
  simp only [ButtonsModel.addAt, hins]

/-! ## The announced destination row -/

/-- C11: whenever `ButtonsModel::move`, `up` or `down` gets past its
early-return guard with a valid source row, and for `move` a target below the
count, the call announces with `beginMoveRows` a destination row that lies in
`[0, count]` and is neither `source` nor `source + 1`, so that the check of
`beginMoveRows` accepts the move. -/
theorem announced_destination_legal (m : ButtonsModel) (source target : Int)
    (hs0 : 0 ≤ source) (hs : source < m.count) (ht : target < m.count) :
    (source ≠ max 0 target →
      ∃ m1 d, m.move source target =
          some (m1, [ModelCall.beginMoveRows source source d, ModelCall.endMoveRows]) ∧
        0 ≤ d ∧ d ≤ m.count ∧ d ≠ source ∧ d ≠ source + 1 ∧
        QAbstractItemModel.allowMove source source d = true) ∧
    (¬ (m.count < 2 ∨ source = 0) →
      ∃ m1 d, m.up source =
          some (m1, [ModelCall.beginMoveRows source source d, ModelCall.endMoveRows]) ∧
        0 ≤ d ∧ d ≤ m.count ∧ d ≠ source ∧ d ≠ source + 1 ∧
        QAbstractItemModel.allowMove source source d = true) ∧
    (¬ (m.count < 2 ∨ source = m.count - 1) →
      ∃ m1 d, m.down source =
          some (m1, [ModelCall.beginMoveRows source source d, ModelCall.endMoveRows]) ∧
        0 ≤ d ∧ d ≤ m.count ∧ d ≠ source ∧ d ≠ source + 1 ∧
        QAbstractItemModel.allowMove source source d = true) := by
  have hallow : ∀ d : Int, d ≠ source → d ≠ source + 1 →
      QAbstractItemModel.allowMove source source d = true := by
    intro d h1 h2
    simp only [QAbstractItemModel.allowMove, Bool.not_eq_true', Bool.and_eq_false_iff,
      decide_eq_false_iff_not]
    omega
  refine ⟨?_, ?_, ?_⟩
  · intro hne
    obtain ⟨x, _, hmv⟩ := buttons_move_eq m source target hs0 hs ht hne
    have hd : 0 ≤ (if target > source then target + 1 else max 0 target) ∧
        (if target > source then target + 1 else max 0 target) ≤ m.count ∧
        (if target > source then target + 1 else max 0 target) ≠ source ∧
        (if target > source then target + 1 else max 0 target) ≠ source + 1 := by
      rcases max_cases 0 target with ⟨h1, _⟩ | ⟨h1, _⟩ <;> split_ifs <;> omega
    exact ⟨_, _, hmv, hd.1, hd.2.1, hd.2.2.1, hd.2.2.2, hallow _ hd.2.2.1 hd.2.2.2⟩
  · intro hg
    obtain ⟨x, _, hup⟩ := buttons_up_eq m source (by omega) hs
    exact ⟨_, _, hup, by omega, by omega, by omega, by omega,
      hallow _ (by omega) (by omega)⟩
  · intro hg
    obtain ⟨x, _, hdown⟩ := buttons_down_eq m source hs0 (by omega)
    exact ⟨_, _, hdown, by omega, by omega, by omega, by omega,
      hallow _ (by omega) (by omega)⟩

/-- Witness of C11 on a four-button list: `move(3, -2)` announces destination
0, `up(3)` destination 2, and `down(1)` destination 3. -/
theorem announced_destination_legal_witness :
    ((0 : Int) ≤ 3 ∧ (3 : Int) < (ButtonsModel.mk [Menu, Close, Shade, Minimize]).count ∧
      (-2 : Int) < (ButtonsModel.mk [Menu, Close, Shade, Minimize]).count ∧
      (3 : Int) ≠ max 0 (-2)) ∧
    (∃ m1 d, ButtonsModel.move ⟨[Menu, Close, Shade, Minimize]⟩ 3 (-2) =
        some (m1, [ModelCall.beginMoveRows 3 3 d, ModelCall.endMoveRows]) ∧
      0 ≤ d ∧ d ≤ (ButtonsModel.mk [Menu, Close, Shade, Minimize]).count ∧ d ≠ 3 ∧ d ≠ 3 + 1 ∧
      QAbstractItemModel.allowMove 3 3 d = true) ∧
    ButtonsModel.move ⟨[Menu, Close, Shade, Minimize]⟩ 3 (-2) =
      some (⟨[Minimize, Menu, Close, Shade]⟩,
        [ModelCall.beginMoveRows 3 3 0, ModelCall.endMoveRows]) :=
  ⟨⟨by decide, by decide, by decide, by decide⟩,
    (announced_destination_legal ⟨[Menu, Close, Shade, Minimize]⟩ 3 (-2) (by decide)
      (by decide) (by decide)).1 (by decide),
    by decide⟩

/-! ## Notification of the parent decoration settings -/

theorem allowMove_of_ne (source d : Int) (h1 : d ≠ source) (h2 : d ≠ source + 1) :
    QAbstractItemModel.allowMove source source d = true := by
  simp only [QAbstractItemModel.allowMove, Bool.not_eq_true', Bool.and_eq_false_iff,
    decide_eq_false_iff_not]
  omega

/-- A call that returns at its guard leaves the model unchanged and announces
nothing. -/
theorem run_atGuard (m : ButtonsModel) (op : ButtonsOp) (hg : op.returnsAtGuard m) :
    op.run m = some (m, []) := by
  cases op with
  | remove row => exact buttons_remove_guard m row hg
  | down index =>
    have hg2 : m.count < 2 ∨ index = m.count - 1 := hg
    simp only [ButtonsOp.run, ButtonsModel.down, hg2, if_true]
  | up index =>
    have hg2 : m.count < 2 ∨ index = 0 := hg
    simp only [ButtonsOp.run, ButtonsModel.up, hg2, if_true]
  | add type => exact False.elim hg
  | addAt index type => exact False.elim hg
  | move source target => exact buttons_move_guard m source target hg

/-- A call with in-range arguments that gets past its guard returns, and its
announcements result in exactly one row signal. -/
theorem run_pastGuard (m : ButtonsModel) (op : ButtonsOp) (h : op.inRange m)
    (hg : ¬ op.returnsAtGuard m) :
    ∃ m1 calls signal, op.run m = some (m1, calls) ∧
      QAbstractItemModel.rowSignals calls [] = some [signal] := by
  have hc := buttons_count_eq m
  cases op with
  | remove row =>
    have hg2 : ¬ (row < 0 ∨ m.count ≤ row) := hg
    exact ⟨_, _, _, buttons_remove_eq m row (by omega) (by omega), rfl⟩
  | down index =>
    have hg2 : ¬ (m.count < 2 ∨ index = m.count - 1) := hg
    have hv : 0 ≤ index ∧ index < m.count := by
      rcases h with h | h | h
      · exact absurd (Or.inl h) hg2
      · exact absurd (Or.inr h) hg2
      · exact h
    obtain ⟨x, _, hdown⟩ := buttons_down_eq m index hv.1 (by omega)
    refine ⟨_, _, RowSignal.rowsMoved index index (index + 2), hdown, ?_⟩
    simp only [QAbstractItemModel.rowSignals,
      allowMove_of_ne index (index + 2) (by omega) (by omega), if_true, Option.map_some']
  | up index =>
    have hg2 : ¬ (m.count < 2 ∨ index = 0) := hg
    have hv : 0 ≤ index ∧ index < m.count := by
      rcases h with h | h | h
      · exact absurd (Or.inl h) hg2
      · exact absurd (Or.inr h) hg2
      · exact h
    obtain ⟨x, _, hup⟩ := buttons_up_eq m index (by omega) hv.2
    refine ⟨_, _, RowSignal.rowsMoved index index (index - 1), hup, ?_⟩
    simp only [QAbstractItemModel.rowSignals,
      allowMove_of_ne index (index - 1) (by omega) (by omega), if_true, Option.map_some']
  | add type => exact ⟨_, _, _, rfl, rfl⟩
  | addAt index type => exact ⟨_, _, _, buttons_addAt_eq m index type h.1 h.2, rfl⟩
  | move source target =>
    have hg2 : ¬ (source = max 0 target) := hg
    have hv : 0 ≤ source ∧ source < m.count ∧ target < m.count := by
      rcases h with h | h
      · exact absurd h hg2
      · exact h
    obtain ⟨x, _, hmv⟩ := buttons_move_eq m source target hv.1 hv.2.1 hv.2.2 hg2
    have hd : (if target > source then target + 1 else max 0 target) ≠ source ∧
        (if target > source then target + 1 else max 0 target) ≠ source + 1 := by
      rcases max_cases 0 target with ⟨h1, _⟩ | ⟨h1, _⟩ <;> split_ifs <;> omega
    refine ⟨_, _, RowSignal.rowsMoved source source
      (if target > source then target + 1 else max 0 target), hmv, ?_⟩
    simp only [QAbstractItemModel.rowSignals, allowMove_of_ne source _ hd.1 hd.2, if_true,
      Option.map_some']

/-- A call on the left model that returns at its guard: nothing is emitted
and nothing changes. -/
theorem callLeft_atGuard {Font : Type} (s : PreviewSettings Font) (op : ButtonsOp)
    (hg : op.returnsAtGuard s.m_leftButtons) : s.callLeft op = some (s, []) := by
  simp [PreviewSettings.callLeft, run_atGuard _ op hg, QAbstractItemModel.rowSignals]

/-- A call on the left model with in-range arguments that gets past its guard:
the parent is notified once, with the new left list. -/
theorem callLeft_pastGuard {Font : Type} (s : PreviewSettings Font) (op : ButtonsOp)
    (h : op.inRange s.m_leftButtons) (hg : ¬ op.returnsAtGuard s.m_leftButtons) :
    ∃ m1, s.callLeft op = some ({ s with m_leftButtons := m1 },
      [Emission.parent (DecorationSettingsSignal.decorationButtonsLeftChanged m1.m_buttons)]) := by
  obtain ⟨m1, calls, signal, hrun, hsig⟩ := run_pastGuard s.m_leftButtons op h hg
  exact ⟨m1, by
    simp [PreviewSettings.callLeft, hrun, hsig, PreviewSettings.updateLeft,
      PreviewSettings.decorationButtonsLeft]⟩

/-- A call on the right model that returns at its guard. -/
theorem callRight_atGuard {Font : Type} (s : PreviewSettings Font) (op : ButtonsOp)
    (hg : op.returnsAtGuard s.m_rightButtons) : s.callRight op = some (s, []) := by
  simp [PreviewSettings.callRight, run_atGuard _ op hg, QAbstractItemModel.rowSignals]

/-- A call on the right model with in-range arguments that gets past its
guard. -/
theorem callRight_pastGuard {Font : Type} (s : PreviewSettings Font) (op : ButtonsOp)
    (h : op.inRange s.m_rightButtons) (hg : ¬ op.returnsAtGuard s.m_rightButtons) :
    ∃ m1, s.callRight op = some ({ s with m_rightButtons := m1 },
      [Emission.parent
        (DecorationSettingsSignal.decorationButtonsRightChanged m1.m_buttons)]) := by
  obtain ⟨m1, calls, signal, hrun, hsig⟩ := run_pastGuard s.m_rightButtons op h hg
  exact ⟨m1, by
    simp [PreviewSettings.callRight, hrun, hsig, PreviewSettings.updateRight,
      PreviewSettings.decorationButtonsRight]⟩

/-- The results of `addButtonToLeft` and `addButtonToRight`, emissions
included. -/
theorem addButton_eq {Font : Type} (s : PreviewSettings Font) (row : Int) :
    if 0 ≤ row ∧ row < s.m_availableButtons.count then
      ∃ type, s.m_availableButtons.m_buttons[row.toNat]? = some type ∧
        s.addButtonToLeft row =
          ({ s with m_leftButtons := ⟨s.m_leftButtons.m_buttons ++ [type]⟩ },
            [Emission.parent (DecorationSettingsSignal.decorationButtonsLeftChanged
              (s.m_leftButtons.m_buttons ++ [type]))]) ∧
        s.addButtonToRight row =
          ({ s with m_rightButtons := ⟨s.m_rightButtons.m_buttons ++ [type]⟩ },
            [Emission.parent (DecorationSettingsSignal.decorationButtonsRightChanged
              (s.m_rightButtons.m_buttons ++ [type]))])
    else s.addButtonToLeft row = (s, []) ∧ s.addButtonToRight row = (s, []) := by
  by_cases h : 0 ≤ row ∧ row < s.m_availableButtons.count
  · obtain ⟨h0, h1⟩ := h
    obtain ⟨type, ht, hat⟩ := QList.at_eq_some s.m_availableButtons.m_buttons row h0 h1
    have hn : ¬ row < 0 := by omega
    have hge : ¬ s.m_availableButtons.count ≤ row := by omega
    have hdata : (QModelIndex.mk row 0 true).data (s.m_availableButtons.data (fun msg => msg))
        Qt.UserRole = QVariant.int type.toInt := by
      simp [QModelIndex.data, ButtonsModel.data, QModelIndex.isValid, h0, hn, hge, hat,
        Qt.UserRole, Qt.DisplayRole]
    have hvalid : (QModelIndex.mk row 0 true).isValid = true := by
      simp [QModelIndex.isValid, h0]
    simp only [h0, h1, and_self, if_true]
    refine ⟨type, ht, ?_, ?_⟩
    · simp [PreviewSettings.addButtonToLeft, index_of_buttons, h0, h1, hvalid, hdata,
        QVariant.toButtonType, ButtonsModel.add, QList.append, PreviewSettings.updateLeft,
        PreviewSettings.decorationButtonsLeft]
    · simp [PreviewSettings.addButtonToRight, index_of_buttons, h0, h1, hvalid, hdata,
        QVariant.toButtonType, ButtonsModel.add, QList.append, PreviewSettings.updateRight,
        PreviewSettings.decorationButtonsRight]
  · have hinv : QModelIndex.invalid.isValid = false := by decide
    simp only [h, if_false]
    constructor
    · simp [PreviewSettings.addButtonToLeft, index_of_buttons, h, hinv]
    · simp [PreviewSettings.addButtonToRight, index_of_buttons, h, hinv]

/-- C12, as the code fails it: on freshly constructed preview settings
`addButtonToLeft(2)` appends a second `OnAllDesktops`; `down(4)` on the left
model then exchanges the two equal buttons of rows 4 and 5, which leaves the
left list (and the whole object) unchanged, and yet the parent is notified
once through `decorationButtonsLeftChanged`. -/
theorem exchange_of_equal_buttons_notifies :
    ((PreviewSettings.new "title").addButtonToLeft 2).1.decorationButtonsLeft =
      [Minimize, Close, Menu, ApplicationMenu, OnAllDesktops, OnAllDesktops] ∧
    ((PreviewSettings.new "title").addButtonToLeft 2).1.callLeft (ButtonsOp.down 4) =
      some (((PreviewSettings.new "title").addButtonToLeft 2).1,
        [Emission.parent (DecorationSettingsSignal.decorationButtonsLeftChanged
          [Minimize, Close, Menu, ApplicationMenu, OnAllDesktops, OnAllDesktops])]) ∧
    ¬ (∀ s1 em, ((PreviewSettings.new "title").addButtonToLeft 2).1.callLeft (ButtonsOp.down 4)
        = some (s1, em) →
      s1.decorationButtonsLeft
        = ((PreviewSettings.new "title").addButtonToLeft 2).1.decorationButtonsLeft →
      em = []) := by
  have h1 : ((PreviewSettings.new "title").addButtonToLeft 2).1.decorationButtonsLeft =
      [Minimize, Close, Menu, ApplicationMenu, OnAllDesktops, OnAllDesktops] := by decide
  have h2 : ((PreviewSettings.new "title").addButtonToLeft 2).1.callLeft (ButtonsOp.down 4) =
      some (((PreviewSettings.new "title").addButtonToLeft 2).1,
        [Emission.parent (DecorationSettingsSignal.decorationButtonsLeftChanged
          [Minimize, Close, Menu, ApplicationMenu, OnAllDesktops, OnAllDesktops])]) := by
    decide
  refine ⟨h1, h2, ?_⟩
  intro hall
  have := hall _ _ h2 rfl
  exact absurd this (by simp)

/-- C12, amended: a call of a member function of the left model (`remove`,
`down`, `up`, `add`, `move`, with in-range arguments) returns and changes no
other data member.  When it returns at its guard it emits nothing and the
settings are unchanged; when it gets past its guard (an insertion, a removal
or a move, also a move that exchanges equal buttons) it emits exactly one
`decorationButtonsLeftChanged`, carrying the left list after the call; so
every call that changes the list notifies once.  It never emits
`decorationButtonsRightChanged`.  `remove` with an out-of-range row, `up(0)`,
`down(count - 1)`, `move` onto the same row and `addButtonToLeft` with an
invalid row emit nothing, while `addButtonToLeft` with a valid row notifies
once with the new list.  The same holds with left and right exchanged. -/
theorem call_past_guard_notifies_parent_once {Font : Type} (s : PreviewSettings Font)
    (op : ButtonsOp) :
    (op.inRange s.m_leftButtons →
      ∃ s1 em, s.callLeft op = some (s1, em) ∧
        s1 = { s with m_leftButtons := s1.m_leftButtons } ∧
        (op.returnsAtGuard s.m_leftButtons → em = [] ∧ s1 = s) ∧
        (¬ op.returnsAtGuard s.m_leftButtons →
          em = [Emission.parent
            (DecorationSettingsSignal.decorationButtonsLeftChanged s1.decorationButtonsLeft)]) ∧
        (s1.decorationButtonsLeft ≠ s.decorationButtonsLeft →
          em = [Emission.parent
            (DecorationSettingsSignal.decorationButtonsLeftChanged s1.decorationButtonsLeft)]) ∧
        ∀ l, Emission.parent (DecorationSettingsSignal.decorationButtonsRightChanged l) ∉ em) ∧
    (op.inRange s.m_rightButtons →
      ∃ s1 em, s.callRight op = some (s1, em) ∧
        s1 = { s with m_rightButtons := s1.m_rightButtons } ∧
        (op.returnsAtGuard s.m_rightButtons → em = [] ∧ s1 = s) ∧
        (¬ op.returnsAtGuard s.m_rightButtons →
          em = [Emission.parent
            (DecorationSettingsSignal.decorationButtonsRightChanged s1.decorationButtonsRight)]) ∧
        (s1.decorationButtonsRight ≠ s.decorationButtonsRight →
          em = [Emission.parent
            (DecorationSettingsSignal.decorationButtonsRightChanged s1.decorationButtonsRight)]) ∧
        ∀ l, Emission.parent (DecorationSettingsSignal.decorationButtonsLeftChanged l) ∉ em) ∧
    ((∀ row, row < 0 ∨ s.m_leftButtons.count ≤ row →
        s.callLeft (ButtonsOp.remove row) = some (s, [])) ∧
      s.callLeft (ButtonsOp.up 0) = some (s, []) ∧
      s.callLeft (ButtonsOp.down (s.m_leftButtons.count - 1)) = some (s, []) ∧
      (∀ row, 0 ≤ row → s.callLeft (ButtonsOp.move row row) = some (s, []))) ∧
    ((∀ row, row < 0 ∨ s.m_rightButtons.count ≤ row →
        s.callRight (ButtonsOp.remove row) = some (s, [])) ∧
      s.callRight (ButtonsOp.up 0) = some (s, []) ∧
      s.callRight (ButtonsOp.down (s.m_rightButtons.count - 1)) = some (s, []) ∧
      (∀ row, 0 ≤ row → s.callRight (ButtonsOp.move row row) = some (s, []))) ∧
    (∀ row, ¬ (0 ≤ row ∧ row < s.m_availableButtons.count) →
      s.addButtonToLeft row = (s, []) ∧ s.addButtonToRight row = (s, [])) ∧
    (∀ row, 0 ≤ row ∧ row < s.m_availableButtons.count →
      ∃ type, s.m_availableButtons.m_buttons[row.toNat]? = some type ∧
        s.callLeft (ButtonsOp.add type) = some (s.addButtonToLeft row) ∧
        s.callRight (ButtonsOp.add type) = some (s.addButtonToRight row) ∧
        (s.addButtonToLeft row).2 = [Emission.parent
          (DecorationSettingsSignal.decorationButtonsLeftChanged
            (s.addButtonToLeft row).1.decorationButtonsLeft)] ∧
        (s.addButtonToRight row).2 = [Emission.parent
          (DecorationSettingsSignal.decorationButtonsRightChanged
            (s.addButtonToRight row).1.decorationButtonsRight)]) := by
  refine ⟨?_, ?_, ⟨?_, ?_, ?_, ?_⟩, ⟨?_, ?_, ?_, ?_⟩, ?_, ?_⟩
  · intro h
    by_cases hg : op.returnsAtGuard s.m_leftButtons
    · exact ⟨s, [], callLeft_atGuard s op hg, rfl, fun _ => ⟨rfl, rfl⟩,
        fun hn => absurd hg hn, fun hne => absurd rfl hne, by simp⟩
    · obtain ⟨m1, hcall⟩ := callLeft_pastGuard s op h hg
      exact ⟨_, _, hcall, rfl, fun hg2 => absurd hg2 hg, fun _ => rfl, fun _ => rfl, by simp⟩
  · intro h
    by_cases hg : op.returnsAtGuard s.m_rightButtons
    · exact ⟨s, [], callRight_atGuard s op hg, rfl, fun _ => ⟨rfl, rfl⟩,
        fun hn => absurd hg hn, fun hne => absurd rfl hne, by simp⟩
    · obtain ⟨m1, hcall⟩ := callRight_pastGuard s op h hg
      exact ⟨_, _, hcall, rfl, fun hg2 => absurd hg2 hg, fun _ => rfl, fun _ => rfl, by simp⟩
  · intro row h
    exact callLeft_atGuard s (ButtonsOp.remove row) h
  · exact callLeft_atGuard s (ButtonsOp.up 0) (Or.inr rfl)
  · exact callLeft_atGuard s (ButtonsOp.down (s.m_leftButtons.count - 1)) (Or.inr rfl)
  · intro row h
    exact callLeft_atGuard s (ButtonsOp.move row row) (max_eq_right h).symm
  · intro row h
    exact callRight_atGuard s (ButtonsOp.remove row) h
  · exact callRight_atGuard s (ButtonsOp.up 0) (Or.inr rfl)
  · exact callRight_atGuard s (ButtonsOp.down (s.m_rightButtons.count - 1)) (Or.inr rfl)
  · intro row h
    exact callRight_atGuard s (ButtonsOp.move row row) (max_eq_right h).symm
  · intro row h
    have := addButton_eq s row
    simpa only [h, if_false] using this
  · intro row h
    have hadd := addButton_eq s row
    simp only [h, and_self, if_true] at hadd
    obtain ⟨type, ht, hl, hr⟩ := hadd
    refine ⟨type, ht, ?_, ?_, ?_, ?_⟩
    · rw [hl]
      simp [PreviewSettings.callLeft, ButtonsOp.run, ButtonsModel.add, QList.append,
        QAbstractItemModel.rowSignals, PreviewSettings.updateLeft,
        PreviewSettings.decorationButtonsLeft]
    · rw [hr]
      simp [PreviewSettings.callRight, ButtonsOp.run, ButtonsModel.add, QList.append,
        QAbstractItemModel.rowSignals, PreviewSettings.updateRight,
        PreviewSettings.decorationButtonsRight]
    · rw [hl]; rfl
    · rw [hr]; rfl

/-- Witness of C12, amended: `down(0)` on the left model of freshly
constructed preview settings gets past the guard and notifies once, with the
list after the exchange. -/
theorem call_past_guard_notifies_parent_once_witness :
    ((ButtonsOp.down 0).inRange (PreviewSettings.new "title").m_leftButtons ∧
      ¬ (ButtonsOp.down 0).returnsAtGuard (PreviewSettings.new "title").m_leftButtons) ∧
    (∃ s1 em, (PreviewSettings.new "title").callLeft (ButtonsOp.down 0) = some (s1, em) ∧
      s1 = { PreviewSettings.new "title" with m_leftButtons := s1.m_leftButtons } ∧
      ((ButtonsOp.down 0).returnsAtGuard (PreviewSettings.new "title").m_leftButtons →
        em = [] ∧ s1 = PreviewSettings.new "title") ∧
      (¬ (ButtonsOp.down 0).returnsAtGuard (PreviewSettings.new "title").m_leftButtons →
        em = [Emission.parent
          (DecorationSettingsSignal.decorationButtonsLeftChanged s1.decorationButtonsLeft)]) ∧
      (s1.decorationButtonsLeft ≠ (PreviewSettings.new "title").decorationButtonsLeft →
        em = [Emission.parent
          (DecorationSettingsSignal.decorationButtonsLeftChanged s1.decorationButtonsLeft)]) ∧
      ∀ l, Emission.parent (DecorationSettingsSignal.decorationButtonsRightChanged l) ∉ em) ∧
    ((PreviewSettings.new "title").callLeft (ButtonsOp.down 0)).map Prod.snd =
      some [Emission.parent (DecorationSettingsSignal.decorationButtonsLeftChanged
        [Close, Minimize, Menu, ApplicationMenu, OnAllDesktops])] :=
  ⟨⟨Or.inr (Or.inr ⟨by decide, by decide⟩),
      fun h => h.elim (fun h1 => absurd h1 (by decide)) (fun h2 => absurd h2 (by decide))⟩,
    (call_past_guard_notifies_parent_once (PreviewSettings.new "title") (ButtonsOp.down 0)).1
      (Or.inr (Or.inr ⟨by decide, by decide⟩)),
    by decide⟩

/-! ## Settings and its preview settings -/

theorem preview_setBorderSizesIndex_index {Font : Type} (p : PreviewSettings Font) (v : Int) :
    (p.setBorderSizesIndex v).1.borderSizesIndex = v := by
  by_cases h : p.m_borderSize = v
  · simp [PreviewSettings.setBorderSizesIndex, PreviewSettings.borderSizesIndex, h]
  · simp [PreviewSettings.setBorderSizesIndex, PreviewSettings.borderSizesIndex, h]

/-- One call of `Settings::setBorderSizesIndex` keeps the index of the preview
settings equal to the index of the settings. -/
theorem settings_setBorderSizesIndex_keeps {Font : Type} (s : Settings Font) (i : Int)
    (h : ∃ p, s.m_previewSettings = some p ∧ p.borderSizesIndex = s.borderSizesIndex) :
    ∃ p, (s.setBorderSizesIndex i).1.m_previewSettings = some p ∧
      p.borderSizesIndex = (s.setBorderSizesIndex i).1.borderSizesIndex := by
  obtain ⟨p, hp, heq⟩ := h
  by_cases hi : s.m_borderSize = i
  · refine ⟨p, ?_, ?_⟩
    · simp [Settings.setBorderSizesIndex, hi, hp]
    · simpa [Settings.setBorderSizesIndex, hi, Settings.borderSizesIndex] using heq
  · refine ⟨(p.setBorderSizesIndex i).1, ?_, ?_⟩
    · simp [Settings.setBorderSizesIndex, hi, hp]
    · rw [preview_setBorderSizesIndex_index]
      simp [Settings.setBorderSizesIndex, hi, hp, Settings.borderSizesIndex]

/-- C13: right after `createSettings` ran with a non-null bridge, the preview
settings obtained from the bridge hold the border-size index of the
`Settings`; the equality still holds after every later sequence of calls of
`Settings::setBorderSizesIndex`; a call `setBorderSizesIndex(i)` leaves `i` as
the index and emits `borderSizesIndexChanged` exactly when `i` differs from
the index held before, carrying `i`. -/
theorem settings_index_in_sync {Font : Type} (s : Settings Font) (last : PreviewSettings Font)
    (later : List Int) (i : Int) :
    (∃ p, (s.createSettings (some last)).1.m_previewSettings = some p ∧
      p.borderSizesIndex = (s.createSettings (some last)).1.borderSizesIndex) ∧
    (∃ p, (later.foldl (fun st j => (st.setBorderSizesIndex j).1)
        (s.createSettings (some last)).1).m_previewSettings = some p ∧
      p.borderSizesIndex = (later.foldl (fun st j => (st.setBorderSizesIndex j).1)
        (s.createSettings (some last)).1).borderSizesIndex) ∧
    (s.setBorderSizesIndex i).1.borderSizesIndex = i ∧
    (∀ v, SettingsEmission.own (SettingsSignal.borderSizesIndexChanged v)
        ∈ (s.setBorderSizesIndex i).2 ↔ (i ≠ s.borderSizesIndex ∧ v = i)) := by
  have hcreate : ∃ p, (s.createSettings (some last)).1.m_previewSettings = some p ∧
      p.borderSizesIndex = (s.createSettings (some last)).1.borderSizesIndex :=
    ⟨(last.setBorderSizesIndex s.m_borderSize).1, rfl, by
      rw [preview_setBorderSizesIndex_index]; rfl⟩
  have hfold : ∀ (js : List Int) (st : Settings Font),
      (∃ p, st.m_previewSettings = some p ∧ p.borderSizesIndex = st.borderSizesIndex) →
      ∃ p, (js.foldl (fun st j => (st.setBorderSizesIndex j).1) st).m_previewSettings = some p ∧
        p.borderSizesIndex
          = (js.foldl (fun st j => (st.setBorderSizesIndex j).1) st).borderSizesIndex := by
    intro js
    induction js with
    | nil => intro st h; exact h
    | cons j js ih =>
      intro st h
      exact ih _ (settings_setBorderSizesIndex_keeps st j h)
  refine ⟨hcreate, hfold later _ hcreate, ?_, ?_⟩
  · by_cases hi : s.m_borderSize = i
    · simp [Settings.setBorderSizesIndex, hi, Settings.borderSizesIndex]
    · cases hp : s.m_previewSettings <;>
        simp [Settings.setBorderSizesIndex, hi, hp, Settings.borderSizesIndex]
  · intro v
    by_cases hi : s.m_borderSize = i
    · simp [Settings.setBorderSizesIndex, hi, Settings.borderSizesIndex]
    · have hi2 : i ≠ s.m_borderSize := fun e => hi e.symm
      cases hp : s.m_previewSettings <;>
        simp [Settings.setBorderSizesIndex, hi, hi2, hp, Settings.borderSizesIndex]

/-! ## Reordering: inverses and permutations -/

/-- C14: `up` and `down` are inverse to each other and `move` is undone by the
opposite `move`: with `0 <= index < count - 1`, `down(index)` followed by
`up(index + 1)` restores the list; with `1 <= index < count`, `up(index)`
followed by `down(index - 1)` restores it; and for valid rows `s` and `t`,
`move(s, t)` followed by `move(t, s)` restores it. -/
theorem up_down_move_inverse (m : ButtonsModel) (index s t : Int) :
    (0 ≤ index ∧ index < m.count - 1 →
      ∃ m1 c1 c2, m.down index = some (m1, c1) ∧ m1.up (index + 1) = some (m, c2)) ∧
    (1 ≤ index ∧ index < m.count →
      ∃ m1 c1 c2, m.up index = some (m1, c1) ∧ m1.down (index - 1) = some (m, c2)) ∧
    (0 ≤ s ∧ s < m.count ∧ 0 ≤ t ∧ t < m.count →
      ∃ m1 c1 c2, m.move s t = some (m1, c1) ∧ m1.move t s = some (m, c2)) := by
  have hc := buttons_count_eq m
  refine ⟨?_, ?_, ?_⟩
  · rintro ⟨h0, h1⟩
    obtain ⟨x, hx, hdown⟩ := buttons_down_eq m index h0 h1
    have hi : index.toNat < m.m_buttons.length := by omega
    have hj : index.toNat + 1 < m.m_buttons.length := by omega
    obtain ⟨hget, hback⟩ := eraseIdx_insertIdx_roundtrip m.m_buttons _ _ x hx hi hj
    have hlen := length_eraseIdx_insertIdx m.m_buttons index.toNat (index.toNat + 1) x hi hj
    obtain ⟨y, hy, hup⟩ := buttons_up_eq
      ⟨(m.m_buttons.eraseIdx index.toNat).insertIdx (index.toNat + 1) x⟩ (index + 1)
      (by omega) (by simp only [ButtonsModel.count, QList.count, hlen]; omega)
    have hn : (index + 1).toNat = index.toNat + 1 := by omega
    simp only [hn] at hy hup
    have hxy : y = x := by
      rw [hget] at hy; exact (Option.some.inj hy).symm
    subst hxy
    simp only [Nat.add_sub_cancel, hback] at hup
    exact ⟨_, _, _, hdown, hup⟩
  · rintro ⟨h0, h1⟩
    obtain ⟨x, hx, hup⟩ := buttons_up_eq m index h0 h1
    have hi : index.toNat < m.m_buttons.length := by omega
    have hj : index.toNat - 1 < m.m_buttons.length := by omega
    obtain ⟨hget, hback⟩ := eraseIdx_insertIdx_roundtrip m.m_buttons _ _ x hx hi hj
    have hlen := length_eraseIdx_insertIdx m.m_buttons index.toNat (index.toNat - 1) x hi hj
    obtain ⟨y, hy, hdown⟩ := buttons_down_eq
      ⟨(m.m_buttons.eraseIdx index.toNat).insertIdx (index.toNat - 1) x⟩ (index - 1)
      (by omega) (by simp only [ButtonsModel.count, QList.count, hlen]; omega)
    have hn : (index - 1).toNat = index.toNat - 1 := by omega
    have hn2 : index.toNat - 1 + 1 = index.toNat := by omega
    simp only [hn] at hy hdown
    have hxy : y = x := by
      rw [hget] at hy; exact (Option.some.inj hy).symm
    subst hxy
    simp only [hn2, hback] at hdown
    exact ⟨_, _, _, hup, hdown⟩
  · rintro ⟨hs0, hs, ht0, ht⟩
    by_cases hst : s = t
    · subst hst
      have hmax : s = max 0 s := (max_eq_right hs0).symm
      exact ⟨m, [], [], buttons_move_guard m s s hmax, buttons_move_guard m s s hmax⟩
    · have hmt : max 0 t = t := max_eq_right ht0
      have hms : max 0 s = s := max_eq_right hs0
      obtain ⟨x, hx, hmv⟩ := buttons_move_eq m s t hs0 hs ht (by rw [hmt]; exact hst)
      rw [hmt] at hmv
      have hi : s.toNat < m.m_buttons.length := by omega
      have hj : t.toNat < m.m_buttons.length := by omega
      obtain ⟨hget, hback⟩ := eraseIdx_insertIdx_roundtrip m.m_buttons _ _ x hx hi hj
      have hlen := length_eraseIdx_insertIdx m.m_buttons s.toNat t.toNat x hi hj
      obtain ⟨y, hy, hmv2⟩ := buttons_move_eq
        ⟨(m.m_buttons.eraseIdx s.toNat).insertIdx t.toNat x⟩ t s ht0
        (by simp only [ButtonsModel.count, QList.count, hlen]; omega)
        (by simp only [ButtonsModel.count, QList.count, hlen]; omega)
        (by rw [hms]; exact fun e => hst e.symm)
      have hxy : y = x := by
        rw [hget] at hy; exact (Option.some.inj hy).symm
      subst hxy
      rw [hms] at hmv2
      simp only [hback] at hmv2
      exact ⟨_, _, _, hmv, hmv2⟩

/-- Witness of C14 on a four-button list: `down(1)` then `up(2)`, `up(2)`
then `down(1)`, and `move(0, 3)` then `move(3, 0)`. -/
theorem up_down_move_inverse_witness :
    (((0 : Int) ≤ 1 ∧ (1 : Int) < (ButtonsModel.mk [Menu, Close, Shade, Minimize]).count - 1) ∧
      ((1 : Int) ≤ 2 ∧ (2 : Int) < (ButtonsModel.mk [Menu, Close, Shade, Minimize]).count) ∧
      ((0 : Int) ≤ 0 ∧ (0 : Int) < (ButtonsModel.mk [Menu, Close, Shade, Minimize]).count ∧
        (0 : Int) ≤ 3 ∧ (3 : Int) < (ButtonsModel.mk [Menu, Close, Shade, Minimize]).count)) ∧
    (∃ m1 c1 c2, ButtonsModel.down ⟨[Menu, Close, Shade, Minimize]⟩ 1 = some (m1, c1) ∧
      m1.up (1 + 1) = some (⟨[Menu, Close, Shade, Minimize]⟩, c2)) ∧
    (∃ m1 c1 c2, ButtonsModel.up ⟨[Menu, Close, Shade, Minimize]⟩ 2 = some (m1, c1) ∧
      m1.down (2 - 1) = some (⟨[Menu, Close, Shade, Minimize]⟩, c2)) ∧
    (∃ m1 c1 c2, ButtonsModel.move ⟨[Menu, Close, Shade, Minimize]⟩ 0 3 = some (m1, c1) ∧
      m1.move 3 0 = some (⟨[Menu, Close, Shade, Minimize]⟩, c2)) :=
  ⟨⟨⟨by decide, by decide⟩, ⟨by decide, by decide⟩,
      ⟨by decide, by decide, by decide, by decide⟩⟩,
    (up_down_move_inverse ⟨[Menu, Close, Shade, Minimize]⟩ 1 0 3).1 ⟨by decide, by decide⟩,
    (up_down_move_inverse ⟨[Menu, Close, Shade, Minimize]⟩ 2 0 3).2.1 ⟨by decide, by decide⟩,
    (up_down_move_inverse ⟨[Menu, Close, Shade, Minimize]⟩ 1 0 3).2.2
      ⟨by decide, by decide, by decide, by decide⟩⟩

/-- The list with the item of position `i` taken out is, with that item put in
front, a permutation of the list. -/
theorem perm_cons_eraseIdx {α : Type} (l : List α) (i : Nat) (x : α) (hx : l[i]? = some x)
    (hi : i < l.length) : l.Perm (x :: l.eraseIdx i) := by
  have hlen : (l.eraseIdx i).length = l.length - 1 := List.length_eraseIdx_of_lt hi
  have h := List.perm_insertIdx x (l.eraseIdx i) (show i ≤ (l.eraseIdx i).length by omega)
  rwa [insertIdx_eraseIdx_self l i x hx hi] at h

/-- Taking an item out and putting it back at another position permutes the
list. -/
theorem perm_eraseIdx_insertIdx {α : Type} (l : List α) (i j : Nat) (x : α)
    (hx : l[i]? = some x) (hi : i < l.length) (hj : j < l.length) :
    ((l.eraseIdx i).insertIdx j x).Perm l := by
  have hlen : (l.eraseIdx i).length = l.length - 1 := List.length_eraseIdx_of_lt hi
  exact (List.perm_insertIdx x (l.eraseIdx i) (show j ≤ (l.eraseIdx i).length by omega)).trans
    (perm_cons_eraseIdx l i x hx hi).symm

/-- C15: reordering never gains or loses a button.  For every button list and
in-range arguments, the list after `up`, `down` or `move` is a permutation of
the list before (so of the same length, with the same buttons counted with
their multiplicity); `remove` with a valid row takes exactly the removed
element away, and both `add` overloads add exactly the given element. -/
theorem reorder_keeps_buttons (m : ButtonsModel) :
    (∀ index, 0 ≤ index ∧ index < m.count →
      ∃ m1 c, m.up index = some (m1, c) ∧ m1.m_buttons.Perm m.m_buttons ∧
        m1.count = m.count) ∧
    (∀ index, 0 ≤ index ∧ index < m.count →
      ∃ m1 c, m.down index = some (m1, c) ∧ m1.m_buttons.Perm m.m_buttons ∧
        m1.count = m.count) ∧
    (∀ source target, 0 ≤ source ∧ source < m.count ∧ target < m.count →
      ∃ m1 c, m.move source target = some (m1, c) ∧ m1.m_buttons.Perm m.m_buttons ∧
        m1.count = m.count) ∧
    (∀ row, 0 ≤ row ∧ row < m.count →
      ∃ m1 c x, m.remove row = some (m1, c) ∧ m.m_buttons[row.toNat]? = some x ∧
        m.m_buttons.Perm (x :: m1.m_buttons)) ∧
    (∀ type, (m.add type).1.m_buttons.Perm (type :: m.m_buttons)) ∧
    (∀ index type, -1 ≤ index ∧ index < m.count →
      ∃ m1 c, m.addAt index type = some (m1, c) ∧
        m1.m_buttons.Perm (⟨type⟩ :: m.m_buttons)) := by
  have hc := buttons_count_eq m
  have hcount : ∀ l : List DecorationButtonType, l.Perm m.m_buttons →
      ButtonsModel.count ⟨l⟩ = m.count := by
    intro l hp
    simp only [ButtonsModel.count, QList.count, hp.length_eq]
  refine ⟨?_, ?_, ?_, ?_, ?_, ?_⟩
  · rintro index ⟨h0, h1⟩
    by_cases hg : m.count < 2 ∨ index = 0
    · refine ⟨m, [], ?_, List.Perm.refl _, rfl⟩
      simp only [ButtonsModel.up, hg, if_true]
    · obtain ⟨x, hx, hup⟩ := buttons_up_eq m index (by omega) h1
      have hp := perm_eraseIdx_insertIdx m.m_buttons index.toNat (index.toNat - 1) x hx
        (by omega) (by omega)
      exact ⟨_, _, hup, hp, hcount _ hp⟩
  · rintro index ⟨h0, h1⟩
    by_cases hg : m.count < 2 ∨ index = m.count - 1
    · refine ⟨m, [], ?_, List.Perm.refl _, rfl⟩
      simp only [ButtonsModel.down, hg, if_true]
    · obtain ⟨x, hx, hdown⟩ := buttons_down_eq m index h0 (by omega)
      have hp := perm_eraseIdx_insertIdx m.m_buttons index.toNat (index.toNat + 1) x hx
        (by omega) (by omega)
      exact ⟨_, _, hdown, hp, hcount _ hp⟩
  · rintro source target ⟨hs0, hs, ht⟩
    by_cases hg : source = max 0 target
    · exact ⟨m, [], buttons_move_guard m source target hg, List.Perm.refl _, rfl⟩
    · obtain ⟨x, hx, hmv⟩ := buttons_move_eq m source target hs0 hs ht hg
      have hp := perm_eraseIdx_insertIdx m.m_buttons source.toNat (max 0 target).toNat x hx
        (by omega) (by rcases max_cases 0 target with ⟨h, _⟩ | ⟨h, _⟩ <;> omega)
      exact ⟨_, _, hmv, hp, hcount _ hp⟩
  · rintro row ⟨h0, h1⟩
    have hlt : row.toNat < m.m_buttons.length := by omega
    exact ⟨_, _, m.m_buttons[row.toNat], buttons_remove_eq m row h0 h1,
      List.getElem?_eq_getElem hlt,
      perm_cons_eraseIdx m.m_buttons row.toNat _ (List.getElem?_eq_getElem hlt) hlt⟩
  · intro type
    simp only [ButtonsModel.add, QList.append]
    exact List.perm_append_singleton type m.m_buttons
  · rintro index type ⟨h0, h1⟩
    exact ⟨_, _, buttons_addAt_eq m index type h0 h1,
      List.perm_insertIdx _ _ (by omega)⟩

/-- Witness of C15 on a list with a duplicate: `move(0, 2)` on
`[Close, Menu, Close, Shade]`. -/
theorem reorder_keeps_buttons_witness :
    ((0 : Int) ≤ 0 ∧ (0 : Int) < (ButtonsModel.mk [Close, Menu, Close, Shade]).count ∧
      (2 : Int) < (ButtonsModel.mk [Close, Menu, Close, Shade]).count) ∧
    (∃ m1 c, ButtonsModel.move ⟨[Close, Menu, Close, Shade]⟩ 0 2 = some (m1, c) ∧
      m1.m_buttons.Perm (ButtonsModel.mk [Close, Menu, Close, Shade]).m_buttons ∧
      m1.count = (ButtonsModel.mk [Close, Menu, Close, Shade]).count) ∧
    ButtonsModel.move ⟨[Close, Menu, Close, Shade]⟩ 0 2 =
      some (⟨[Menu, Close, Close, Shade]⟩,
        [ModelCall.beginMoveRows 0 0 3, ModelCall.endMoveRows]) :=
  ⟨⟨by decide, by decide, by decide⟩,
    (reorder_keeps_buttons ⟨[Close, Menu, Close, Shade]⟩).2.2.1 0 2
      ⟨by decide, by decide, by decide⟩,
    by decide⟩

/-! ## Arguments out of range -/

theorem QList.takeAt_out_of_range {α : Type} (l : List α) (i : Int)
    (h : i < 0 ∨ QList.count l ≤ i) : QList.takeAt l i = none := by
  have hn : ¬ (0 ≤ i ∧ i < QList.count l) := by omega
  simp [QList.takeAt, QList.at_, hn]

theorem QList.move_out_of_range {α : Type} (l : List α) (s t : Int)
    (h : t < 0 ∨ QList.count l ≤ t) : QList.move l s t = none := by
  have hn : ¬ (0 ≤ s ∧ s < QList.count l ∧ 0 ≤ t ∧ t < QList.count l) := by omega
  simp only [QList.move, hn, if_false]

/-- C16, what the code does where the claim fails: with at least two buttons
and an index that is no row of the list, `ButtonsModel::up` and
`ButtonsModel::down` get past their guards and call `takeAt` on a position
outside the list, so they have no result, instead of leaving the list
unchanged as `remove` does for such a row. -/
theorem up_down_lack_range_guard (m : ButtonsModel) (index : Int) (h2 : 2 ≤ m.count)
    (hout : index < 0 ∨ m.count ≤ index) :
    m.up index = none ∧ m.down index = none ∧ m.remove index = some (m, []) := by
  have htake := QList.takeAt_out_of_range m.m_buttons index hout
  have hg1 : ¬ (m.count < 2 ∨ index = 0) := by omega
  have hg2 : ¬ (m.count < 2 ∨ index = m.count - 1) := by omega
  refine ⟨?_, ?_, buttons_remove_guard m index hout⟩
  · simp only [ButtonsModel.up, hg1, if_false, htake]
  · simp only [ButtonsModel.down, hg2, if_false, htake]

/-- Witness of C16: `up(5)` and `down(5)` on a three-button list. -/
theorem up_down_lack_range_guard_witness :
    ((2 : Int) ≤ (ButtonsModel.mk [Menu, Close, Shade]).count ∧
      ((5 : Int) < 0 ∨ (ButtonsModel.mk [Menu, Close, Shade]).count ≤ 5)) ∧
    (ButtonsModel.up ⟨[Menu, Close, Shade]⟩ 5 = none ∧
      ButtonsModel.down ⟨[Menu, Close, Shade]⟩ 5 = none ∧
      ButtonsModel.remove ⟨[Menu, Close, Shade]⟩ 5 = some (⟨[Menu, Close, Shade]⟩, [])) :=
  ⟨⟨by decide, Or.inr (by decide)⟩,
    up_down_lack_range_guard ⟨[Menu, Close, Shade]⟩ 5 (by decide) (Or.inr (by decide))⟩

/-- C17, what the code does where the claim fails: for a valid source row and
a target index at or above the count, `max(0, targetIndex)` is the target
itself, which is no row of the list; `ButtonsModel::move` gets past its guard
and hands this position to `QList::move`, which has no result.  For a target
below the count (negative ones included) the position is a row of the list. -/
theorem move_target_not_clamped_above (m : ButtonsModel) (source target : Int)
    (hs0 : 0 ≤ source) (hs : source < m.count) :
    (m.count ≤ target →
      ¬ (max 0 target < m.count) ∧ source ≠ max 0 target ∧
        QList.move m.m_buttons source (max 0 target) = none ∧
        m.move source target = none) ∧
    (target < m.count → 0 ≤ max 0 target ∧ max 0 target < m.count) := by
  constructor
  · intro ht
    have hmax : max 0 target = target := max_eq_right (by omega)
    have hne : source ≠ max 0 target := by omega
    have hmv := QList.move_out_of_range m.m_buttons source (max 0 target)
      (Or.inr (by rw [hmax]; exact ht))
    refine ⟨by omega, hne, hmv, ?_⟩
    simp only [ButtonsModel.move, hne, if_false, hmv]
  · intro ht
    rcases max_cases 0 target with ⟨h, _⟩ | ⟨h, _⟩ <;> omega

/-- Witness of C17: `move(0, 2)` on a two-button list. -/
theorem move_target_not_clamped_above_witness :
    ((0 : Int) ≤ 0 ∧ (0 : Int) < (ButtonsModel.mk [Menu, Close]).count ∧
      (ButtonsModel.mk [Menu, Close]).count ≤ 2) ∧
    (¬ (max 0 (2 : Int) < (ButtonsModel.mk [Menu, Close]).count) ∧ (0 : Int) ≠ max 0 2 ∧
      QList.move (ButtonsModel.mk [Menu, Close]).m_buttons 0 (max 0 2) = none ∧
      ButtonsModel.move ⟨[Menu, Close]⟩ 0 2 = none) :=
  ⟨⟨by decide, by decide, by decide⟩,
    (move_target_not_clamped_above ⟨[Menu, Close]⟩ 0 2 (by decide) (by decide)).1
      (by decide)⟩

/-- C18: `PreviewSettings::setBorderSizesIndex` accepts every integer: the
index it leaves is the one given.  With the nine-row border-sizes list and an
index outside `0..8`, `borderSize()` is the value-initialised
`BorderSize::None` (the model index is invalid, its data the empty
`QVariant`), while `borderSizesIndex()` reports the out-of-range index. -/
theorem borderSize_out_of_range_is_None {Font : Type} (s : PreviewSettings Font) (i : Int)
    (hb : s.m_borderSizes = BorderSizesModel.new) (hout : i < 0 ∨ 9 ≤ i) :
    (∀ j, (s.setBorderSizesIndex j).1.borderSizesIndex = j) ∧
    (s.setBorderSizesIndex i).1.borderSizesIndex = i ∧
    (s.setBorderSizesIndex i).1.borderSize = BorderSize.None ∧
    QAbstractListModel.index BorderSizesModel.new.rowCount i = QModelIndex.invalid ∧
    QModelIndex.invalid.data BorderSizesModel.new.data Qt.UserRole = QVariant.invalid := by
  have hidx : QAbstractListModel.index BorderSizesModel.new.rowCount i = QModelIndex.invalid := by
    have hrc : BorderSizesModel.new.rowCount QModelIndex.invalid = 9 := by decide
    by_cases hn : i < 0
    · simp [QAbstractListModel.index, QAbstractListModel.hasIndex, hn]
    · have h9 : ¬ i < 9 := by omega
      simp [QAbstractListModel.index, QAbstractListModel.hasIndex, hn, hrc, h9]
  have hsize : ∀ t : PreviewSettings Font, t.m_borderSizes = BorderSizesModel.new →
      t.m_borderSize = i → t.borderSize = BorderSize.None := by
    intro t ht hti
    simp only [PreviewSettings.borderSize, ht, hti, hidx]
    rfl
  refine ⟨fun j => preview_setBorderSizesIndex_index s j,
    preview_setBorderSizesIndex_index s i, ?_, hidx, rfl⟩
  apply hsize
  · by_cases h : s.m_borderSize = i
    · simp [PreviewSettings.setBorderSizesIndex, h, hb]
    · simp [PreviewSettings.setBorderSizesIndex, h, hb]
  · exact preview_setBorderSizesIndex_index s i

/-- Witness of C18: index `-4` set on freshly constructed preview settings. -/
theorem borderSize_out_of_range_is_None_witness :
    ((PreviewSettings.new "title").m_borderSizes = BorderSizesModel.new ∧
      ((-4 : Int) < 0 ∨ (9 : Int) ≤ -4)) ∧
    ((PreviewSettings.new "title").setBorderSizesIndex (-4)).1.borderSizesIndex = -4 ∧
    ((PreviewSettings.new "title").setBorderSizesIndex (-4)).1.borderSize = BorderSize.None :=
  ⟨⟨rfl, Or.inl (by decide)⟩,
    (borderSize_out_of_range_is_None (PreviewSettings.new "title") (-4) rfl
      (Or.inl (by decide))).2.1,
    (borderSize_out_of_range_is_None (PreviewSettings.new "title") (-4) rfl
      (Or.inl (by decide))).2.2.1⟩

end AppletDecoration
